import Mathlib

/-!
Verification of the lume core source builder (`src/core/source.ts`).

The development shallowly embeds the data model and the operations of the
source scanner: JavaScript records (`Rec`), the cascade data merge
(`mergeData`), the component registry cascade (`mergeComponents`), the lazy
component proxy (`toProxy` / proxy property access), the filename date parser
(`parseDate`), posix path helpers, the URL resolver (`getUrl`) and the
recursive tree builder (`build` / `#build`).

JavaScript numbers are modelled as integers (no claim exercises float
behaviour); `Date` values are epoch milliseconds.  JavaScript functions stored
in data records are modelled as opaque tokens interpreted by an environment.
-/

namespace Lume

/-- Model of a JavaScript runtime value as stored in data records.
`func` is an opaque function token interpreted through an environment;
`pageMark` and `proxyMark` stand for the page back-reference and the
component-proxy object attached to records by the builder. -/
inductive JsValue where
  | null
  | bool (b : Bool)
  | num (n : Int)
  | str (s : String)
  | date (ms : Int)
  | arr (elems : List JsValue)
  | obj (fields : List (String × JsValue))
  | func (tok : Nat)
  | pageMark
  | proxyMark
deriving Repr

mutual

def JsValue.beq : JsValue → JsValue → Bool
  | .null, .null => true
  | .bool a, .bool b => a == b
  | .num a, .num b => a == b
  | .str a, .str b => a == b
  | .date a, .date b => a == b
  | .arr a, .arr b => JsValue.beqList a b
  | .obj a, .obj b => JsValue.beqFields a b
  | .func a, .func b => a == b
  | .pageMark, .pageMark => true
  | .proxyMark, .proxyMark => true
  | _, _ => false

def JsValue.beqList : List JsValue → List JsValue → Bool
  | [], [] => true
  | a :: as, b :: bs => JsValue.beq a b && JsValue.beqList as bs
  | _, _ => false

def JsValue.beqFields : List (String × JsValue) → List (String × JsValue) → Bool
  | [], [] => true
  | (ka, va) :: as, (kb, vb) :: bs => ka == kb && JsValue.beq va vb && JsValue.beqFields as bs
  | _, _ => false

end

mutual

theorem JsValue.beq_iff : ∀ a b : JsValue, JsValue.beq a b = true ↔ a = b
  | .null, b => by cases b <;> simp [JsValue.beq]
  | .bool a, b => by cases b <;> simp [JsValue.beq]
  | .num a, b => by cases b <;> simp [JsValue.beq]
  | .str a, b => by cases b <;> simp [JsValue.beq]
  | .date a, b => by cases b <;> simp [JsValue.beq]
  | .arr a, b => by
      cases b <;> simp [JsValue.beq]
      exact JsValue.beqList_iff a _
  | .obj a, b => by
      cases b <;> simp [JsValue.beq]
      exact JsValue.beqFields_iff a _
  | .func a, b => by cases b <;> simp [JsValue.beq]
  | .pageMark, b => by cases b <;> simp [JsValue.beq]
  | .proxyMark, b => by cases b <;> simp [JsValue.beq]

theorem JsValue.beqList_iff : ∀ a b : List JsValue, JsValue.beqList a b = true ↔ a = b
  | [], b => by cases b <;> simp [JsValue.beqList]
  | x :: xs, b => by
      cases b with
      | nil => simp [JsValue.beqList]
      | cons y ys =>
          simp [JsValue.beqList, JsValue.beq_iff x y, JsValue.beqList_iff xs ys]

theorem JsValue.beqFields_iff : ∀ a b : List (String × JsValue), JsValue.beqFields a b = true ↔ a = b
  | [], b => by cases b <;> simp [JsValue.beqFields]
  | (ka, va) :: xs, b => by
      cases b with
      | nil => simp [JsValue.beqFields]
      | cons y ys =>
          obtain ⟨kb, vb⟩ := y
          simp [JsValue.beqFields, JsValue.beq_iff va vb, JsValue.beqFields_iff xs ys,
            and_assoc]

end

instance : DecidableEq JsValue := fun a b =>
  decidable_of_iff (JsValue.beq a b = true) (JsValue.beq_iff a b)

instance {ε α : Type} [DecidableEq ε] [DecidableEq α] : DecidableEq (Except ε α)
  | .error x, .error y =>
      match decEq x y with
      | isTrue h => isTrue (h ▸ rfl)
      | isFalse h => isFalse fun hh => h (Except.error.inj hh)
  | .ok x, .ok y =>
      match decEq x y with
      | isTrue h => isTrue (h ▸ rfl)
      | isFalse h => isFalse fun hh => h (Except.ok.inj hh)
  | .error _, .ok _ => isFalse fun hh => Except.noConfusion hh
  | .ok _, .error _ => isFalse fun hh => Except.noConfusion hh

/-- A JavaScript object / data record: insertion-ordered fields with unique
keys (uniqueness is an invariant of JS objects, stated as a hypothesis where a
theorem needs it). -/
abbrev Rec := List (String × JsValue)

/-- Property lookup on a record (JS `r[key]`; `none` models `undefined`). -/
def recGet (key : String) : Rec → Option JsValue
  | [] => none
  | (k, v) :: rest => if k = key then some v else recGet key rest

/-- Property assignment on a record (JS `r[key] = v`): replaces the value in
place when the key exists, otherwise appends the field. -/
def recSet (key : String) (v : JsValue) : Rec → Rec
  | [] => [(key, v)]
  | (k, w) :: rest => if k = key then (k, v) :: rest else (k, w) :: recSet key v rest

/-- Property deletion (JS `delete r[key]`). -/
def recDel (key : String) : Rec → Rec
  | [] => []
  | (k, w) :: rest => if k = key then rest else (k, w) :: recDel key rest

/-- JS `key in r`. -/
def recHas (key : String) (r : Rec) : Bool := (recGet key r).isSome

/-- JS object spread / `Object.assign`: fields of `c` overlay those of `p`. -/
def recSpread (p c : Rec) : Rec := c.foldl (fun acc kv => recSet kv.1 kv.2 acc) p

theorem recGet_recSet_self (key : String) (v : JsValue) (r : Rec) :
    recGet key (recSet key v r) = some v := by
  induction r with
  | nil => simp [recSet, recGet]
  | cons kv rest ih =>
      obtain ⟨k, w⟩ := kv
      by_cases hk : k = key
      · simp [recSet, hk, recGet]
      · simp [recSet, hk, recGet, ih]

theorem recGet_recSet_ne (key key' : String) (v : JsValue) (r : Rec) (h : key' ≠ key) :
    recGet key' (recSet key v r) = recGet key' r := by
  induction r with
  | nil => simp [recSet, recGet, Ne.symm h]
  | cons kv rest ih =>
      obtain ⟨k, w⟩ := kv
      by_cases hk : k = key
      · subst hk
        simp [recSet, recGet, Ne.symm h]
      · simp [recSet, hk, recGet, ih]

theorem recGet_eq_none_of_not_mem (key : String) (r : Rec)
    (h : key ∉ r.map Prod.fst) : recGet key r = none := by
  induction r with
  | nil => simp [recGet]
  | cons kv rest ih =>
      obtain ⟨k, w⟩ := kv
      simp only [List.map_cons, List.mem_cons, not_or] at h
      simp [recGet, Ne.symm h.1, ih h.2]

theorem recGet_recDel_self (key : String) (r : Rec) (h : (r.map Prod.fst).Nodup) :
    recGet key (recDel key r) = none := by
  induction r with
  | nil => simp [recDel, recGet]
  | cons kv rest ih =>
      obtain ⟨k, w⟩ := kv
      simp only [List.map_cons, List.nodup_cons] at h
      by_cases hk : k = key
      · subst hk
        simp only [recDel, if_pos rfl]
        exact recGet_eq_none_of_not_mem k rest h.1
      · simp [recDel, hk, recGet, ih h.2]

theorem recGet_recDel_ne (key key' : String) (r : Rec) (h : key' ≠ key) :
    recGet key' (recDel key r) = recGet key' r := by
  induction r with
  | nil => simp [recDel]
  | cons kv rest ih =>
      obtain ⟨k, w⟩ := kv
      by_cases hk : k = key
      · subst hk
        simp [recDel, recGet, Ne.symm h]
      · simp [recDel, hk, recGet, ih]

/-! ## Data merge engine (`mergeData`, source.ts lines 985-1039) -/

/-- Model of the JavaScript `String(v)` coercion for the values a data record
can hold.  Strings, numbers and booleans follow JS exactly (numbers are
modelled as integers); arrays stringify as the comma-joined coercion of their
elements; plain objects give `"[object Object]"`. -/
def jsToString : JsValue → String
  | .null => "null"
  | .bool b => if b then "true" else "false"
  | .num n => toString n
  | .str s => s
  | .date ms => "date:" ++ toString ms
  | .arr elems => String.intercalate "," (elems.map fun v =>
      match v with
      | .str s => s
      | .num n => toString n
      | .bool b => if b then "true" else "false"
      | .null => ""
      | _ => "")
  | .obj _ => "[object Object]"
  | .func _ => "function"
  | .pageMark => "[object Object]"
  | .proxyMark => "[object Object]"

/-- Fields of a value used in an object spread position: `{...v}` contributes
the fields of an object and nothing for `undefined`/`null`/other primitives. -/
def objFields : Option JsValue → Rec
  | some (.obj fields) => fields
  | _ => []

/-- The coercion the merge loop applies to a merged key of a record `r`:
`Array.isArray(r[key]) ? r[key] : (key in r) ? [r[key]] : []`. -/
def elemsOf (r : Rec) (key : String) : List JsValue :=
  match recGet key r with
  | some (.arr xs) => xs
  | some v => [v]
  | none => []

/-- Order-preserving de-duplication, first occurrence wins
(JS `[...new Set(xs)]`; for `"array"`-merged keys JS compares objects by
reference, which this value-equality model approximates — no claim exercises
that case). -/
def dedupFirstAux (seen : List JsValue) : List JsValue → List JsValue
  | [] => []
  | x :: xs => if x ∈ seen then dedupFirstAux seen xs else x :: dedupFirstAux (x :: seen) xs

/-- Order-preserving de-duplication, first occurrence wins (`[...new Set(xs)]`). -/
def dedupFirst (l : List JsValue) : List JsValue := dedupFirstAux [] l

/-- Body of the merged-keys `switch`: the typed combination applied for one
entry `kv` of the directive table, over the two records being merged. -/
def mergeKeyStep (previous current data : Rec) (kv : String × JsValue) : Rec :=
  match kv.2 with
  | .str "stringArray" =>
      let currentValue := elemsOf current kv.1
      let previousValue := elemsOf previous kv.1
      let merged := previousValue ++ currentValue
      recSet kv.1 (.arr (dedupFirst (merged.map fun v => JsValue.str (jsToString v)))) data
  | .str "array" =>
      let currentValue := elemsOf current kv.1
      let previousValue := elemsOf previous kv.1
      let merged := previousValue ++ currentValue
      recSet kv.1 (.arr (dedupFirst merged)) data
  | .str "object" =>
      recSet kv.1 (.obj (recSpread (objFields (recGet kv.1 previous))
        (objFields (recGet kv.1 current)))) data
  | _ => data

/-- One step of the `mergeData` fold (the `reduce` callback): shallow overlay
of `current` over `previous`, then for each key of the combined `mergedKeys`
directive table the typed combination of the two records being merged. -/
def mergeTwoData (previous current : Rec) : Rec :=
  let data := recSpread previous current
  let mergedKeys := recSpread (objFields (recGet "mergedKeys" previous))
    (objFields (recGet "mergedKeys" current))
  mergedKeys.foldl (mergeKeyStep previous current) data

/-- `mergeData(...datas)`: left fold of `mergeTwoData` seeded with the first
record (JS `Array.prototype.reduce` without initial value; the builder never
calls it with fewer than two records). -/
def mergeData : List Rec → Rec
  | [] => []
  | d :: rest => rest.foldl mergeTwoData d

theorem map_fst_recSet (k : String) (v : JsValue) (r : Rec) :
    (recSet k v r).map Prod.fst =
      if k ∈ r.map Prod.fst then r.map Prod.fst else r.map Prod.fst ++ [k] := by
  induction r with
  | nil => simp [recSet]
  | cons kv rest ih =>
      obtain ⟨k0, w⟩ := kv
      by_cases hk : k0 = k
      · subst hk
        simp [recSet]
      · simp only [recSet, if_neg hk, List.map_cons, List.mem_cons, ih]
        by_cases hmem : k ∈ rest.map Prod.fst
        · simp [hmem, Ne.symm hk]
        · simp [hmem, Ne.symm hk]

theorem nodup_recSet (k : String) (v : JsValue) (r : Rec)
    (h : (r.map Prod.fst).Nodup) : ((recSet k v r).map Prod.fst).Nodup := by
  rw [map_fst_recSet]
  by_cases hmem : k ∈ r.map Prod.fst
  · simpa [hmem]
  · simpa [hmem] using List.Nodup.append h (List.nodup_singleton k)
      (by simpa using hmem)

theorem nodup_recSpread (p c : Rec) (h : (p.map Prod.fst).Nodup) :
    ((recSpread p c).map Prod.fst).Nodup := by
  induction c generalizing p with
  | nil => simpa [recSpread]
  | cons kv rest ih =>
      simpa [recSpread] using ih (recSet kv.1 kv.2 p) (nodup_recSet kv.1 kv.2 p h)

theorem recGet_mergeKeyStep_ne (previous current data : Rec) (kv : String × JsValue)
    (key : String) (h : kv.1 ≠ key) :
    recGet key (mergeKeyStep previous current data kv) = recGet key data := by
  obtain ⟨k, tv⟩ := kv
  have h' : key ≠ k := Ne.symm h
  cases tv with
  | str s =>
      by_cases h1 : s = "stringArray"
      · simp [mergeKeyStep, h1, recGet_recSet_ne _ _ _ _ h']
      · by_cases h2 : s = "array"
        · simp [mergeKeyStep, h1, h2, recGet_recSet_ne _ _ _ _ h']
        · by_cases h3 : s = "object"
          · simp [mergeKeyStep, h1, h2, h3, recGet_recSet_ne _ _ _ _ h']
          · simp [mergeKeyStep, h1, h2, h3]
  | null => simp [mergeKeyStep]
  | bool b => simp [mergeKeyStep]
  | num n => simp [mergeKeyStep]
  | date ms => simp [mergeKeyStep]
  | arr xs => simp [mergeKeyStep]
  | obj fs => simp [mergeKeyStep]
  | func t => simp [mergeKeyStep]
  | pageMark => simp [mergeKeyStep]
  | proxyMark => simp [mergeKeyStep]

theorem recGet_foldl_mergeKeyStep_not_mem (previous current : Rec) (key : String)
    (table : List (String × JsValue)) (data : Rec)
    (h : key ∉ table.map Prod.fst) :
    recGet key (table.foldl (mergeKeyStep previous current) data) = recGet key data := by
  induction table generalizing data with
  | nil => simp
  | cons kv rest ih =>
      simp only [List.map_cons, List.mem_cons, not_or] at h
      rw [List.foldl_cons, ih _ h.2, recGet_mergeKeyStep_ne _ _ _ _ _ (Ne.symm h.1)]

theorem recGet_foldl_mergeKeyStep_stringArray (previous current : Rec) (key : String)
    (table : List (String × JsValue)) (data : Rec)
    (hnodup : (table.map Prod.fst).Nodup)
    (hdir : recGet key table = some (.str "stringArray")) :
    recGet key (table.foldl (mergeKeyStep previous current) data) =
      some (.arr (dedupFirst ((elemsOf previous key ++ elemsOf current key).map
        fun v => JsValue.str (jsToString v)))) := by
  induction table generalizing data with
  | nil => simp [recGet] at hdir
  | cons kv rest ih =>
      obtain ⟨k, tv⟩ := kv
      simp only [List.map_cons, List.nodup_cons] at hnodup
      by_cases hk : k = key
      · subst hk
        have hdir' : tv = .str "stringArray" := by simpa [recGet] using hdir
        subst hdir'
        rw [List.foldl_cons,
          recGet_foldl_mergeKeyStep_not_mem _ _ _ _ _ hnodup.1]
        simp [mergeKeyStep, recGet_recSet_self]
      · simp only [recGet, if_neg hk] at hdir
        rw [List.foldl_cons]
        exact ih _ hnodup.2 hdir

/-- The combined mergedKeys directive table of one `mergeData` step. -/
def directiveTable (previous current : Rec) : Rec :=
  recSpread (objFields (recGet "mergedKeys" previous))
    (objFields (recGet "mergedKeys" current))

theorem mergeTwoData_eq (previous current : Rec) :
    mergeTwoData previous current =
      (directiveTable previous current).foldl (mergeKeyStep previous current)
        (recSpread previous current) := rfl

/-- C5: for every two records merged with `mergeData` whose combined
`mergedKeys` table declares `key` as `"stringArray"`, the result under `key`
is the previous value's elements followed by the current value's elements
(`elemsOf` turns a present scalar into a one-element sequence and an absent
key into an empty one), each coerced to a string, de-duplicated preserving
first-seen order. -/
theorem mergeData_stringArray_key (previous current : Rec) (key : String)
    (hnodup : ((objFields (recGet "mergedKeys" previous)).map Prod.fst).Nodup)
    (hdir : recGet key (directiveTable previous current) = some (.str "stringArray")) :
    recGet key (mergeData [previous, current]) =
      some (.arr (dedupFirst ((elemsOf previous key ++ elemsOf current key).map
        fun v => JsValue.str (jsToString v)))) := by
  show recGet key (mergeTwoData previous current) = _
  rw [mergeTwoData_eq]
  exact recGet_foldl_mergeKeyStep_stringArray _ _ _ _ _
    (nodup_recSpread _ _ hnodup) hdir

/-- Witness for C5 at the claim's concrete example: merging
`{tags:["a","b"]}` (declaring `tags: "stringArray"`) then `{tags:["b","c"]}`
yields `{tags:["a","b","c"]}`. -/
theorem mergeData_stringArray_key_witness :
    recGet "tags" (mergeData
      [[("tags", .arr [.str "a", .str "b"]),
        ("mergedKeys", .obj [("tags", .str "stringArray")])],
       [("tags", .arr [.str "b", .str "c"])]])
      = some (.arr [.str "a", .str "b", .str "c"]) :=
  (mergeData_stringArray_key _ _ "tags" (by decide) (by decide)).trans (by decide)

/-! ## Component registry cascade (`mergeComponents`, source.ts lines 502-521) -/

/-- A component registry entry: either a nested registry (a JS `Map`, the
namespace case) or a leaf component `{render, css?, js?}` whose render
function is an opaque token. -/
inductive CompTree where
  | ns (entries : List (String × CompTree))
  | leaf (render : Nat) (css js : Option String)
deriving Repr

mutual

def CompTree.beq : CompTree → CompTree → Bool
  | .ns a, .ns b => CompTree.beqEntries a b
  | .leaf r1 c1 j1, .leaf r2 c2 j2 => r1 == r2 && c1 == c2 && j1 == j2
  | _, _ => false

def CompTree.beqEntries : List (String × CompTree) → List (String × CompTree) → Bool
  | [], [] => true
  | (ka, va) :: as, (kb, vb) :: bs =>
      ka == kb && CompTree.beq va vb && CompTree.beqEntries as bs
  | _, _ => false

end

mutual

theorem CompTree.beqTree_iff : ∀ a b : CompTree, CompTree.beq a b = true ↔ a = b
  | .ns a, b => by
      cases b <;> simp [CompTree.beq]
      exact CompTree.beqEntries_iff a _
  | .leaf r c j, b => by cases b <;> simp [CompTree.beq, and_assoc]

theorem CompTree.beqEntries_iff :
    ∀ a b : List (String × CompTree), CompTree.beqEntries a b = true ↔ a = b
  | [], b => by cases b <;> simp [CompTree.beqEntries]
  | (ka, va) :: xs, b => by
      cases b with
      | nil => simp [CompTree.beqEntries]
      | cons y ys =>
          obtain ⟨kb, vb⟩ := y
          simp [CompTree.beqEntries, CompTree.beqTree_iff va vb,
            CompTree.beqEntries_iff xs ys, and_assoc]

end

instance : DecidableEq CompTree := fun a b =>
  decidable_of_iff (CompTree.beq a b = true) (CompTree.beqTree_iff a b)

/-- A component registry: a JS `Map` from (lower-cased) component name to
entry, modelled as an insertion-ordered association list with unique keys. -/
abbrev Components := List (String × CompTree)

/-- `Map.get` (first matching key; a JS `Map` holds each key once). -/
def compGet (key : String) : Components → Option CompTree
  | [] => none
  | (k, v) :: rest => if k = key then some v else compGet key rest

/-- `Map.set`: updates the entry in place when the key exists (keeping its
position, as a JS `Map` does), otherwise appends. -/
def compSet (key : String) (v : CompTree) : Components → Components
  | [] => [(key, v)]
  | (k, w) :: rest => if k = key then (k, v) :: rest else (k, w) :: compSet key v rest

theorem sizeOf_compGet {key : String} :
    ∀ {c : Components} {t : CompTree}, compGet key c = some t → sizeOf t < sizeOf c := by
  intro c
  induction c with
  | nil => intro t h; simp [compGet] at h
  | cons kv rest ih =>
      obtain ⟨k, v⟩ := kv
      intro t h
      by_cases hk : k = key
      · simp only [compGet, if_pos hk, Option.some.injEq] at h
        subst h
        simp only [List.cons.sizeOf_spec, Prod.mk.sizeOf_spec]
        omega
      · simp only [compGet, if_neg hk] at h
        have := ih h
        simp only [List.cons.sizeOf_spec]
        omega

mutual

/-- The body of the `reduce` callback of `mergeComponents`
(source.ts 503-519): start from a copy of `previous`, then iterate the
entries of `current`; on a collision where both values are `Map`s the source
recurses with `mergeComponents(value, previousValue)` — in the variadic
reduce this makes `previousValue` (the EARLIER value) the overriding
argument.  The collision lookup reads the accumulator; since a JS `Map`
iterates each key once, that equals a lookup in the original `previous`,
which is what `mergeWalk` uses. -/
def mergeTwoC (previous current : Components) : Components :=
  mergeWalk previous current previous
termination_by 2 * (sizeOf previous + sizeOf current) + 1
decreasing_by
  all_goals simp_wf

def mergeWalk (previous : Components) (entries : List (String × CompTree))
    (acc : Components) : Components :=
  match entries with
  | [] => acc
  | (key, value) :: rest =>
      match hm : compGet key previous with
      | some (.ns pe) =>
          match value with
          | .ns ce =>
              mergeWalk previous rest
                (compSet key (.ns (mergeTwoC ce pe)) acc)
          | _ => mergeWalk previous rest (compSet key value acc)
      | _ => mergeWalk previous rest (compSet key value acc)
termination_by 2 * (sizeOf previous + sizeOf entries)
decreasing_by
  all_goals simp_wf
  · have h := sizeOf_compGet hm
    simp only [CompTree.ns.sizeOf_spec] at h
    omega

end

/-- `mergeComponents(parent, scopedRegistry, loaded)` at the builder's call
site (source.ts 199-203): the variadic reduce folds the later registries over
the first. -/
def mergeComponentsV (parent scopedRegistry loaded : Components) : Components :=
  mergeTwoC (mergeTwoC parent scopedRegistry) loaded

mutual

/-- The earlier revision of `mergeComponents` kept in the same file
(source.ts 961-982): binary `mergeComponents(current, previous)` where the
first argument overrides, and the nested recursion
`mergeComponents(value, previousValue)` keeps the same orientation at every
depth. -/
def mergeComponentsOld (current previous : Components) : Components :=
  mergeOldWalk previous current previous
termination_by 2 * (sizeOf previous + sizeOf current) + 1
decreasing_by
  all_goals simp_wf

def mergeOldWalk (previous : Components) (entries : List (String × CompTree))
    (acc : Components) : Components :=
  match entries with
  | [] => acc
  | (key, value) :: rest =>
      match hm : compGet key previous with
      | some (.ns pe) =>
          match value with
          | .ns ce =>
              mergeOldWalk previous rest
                (compSet key (.ns (mergeComponentsOld ce pe)) acc)
          | _ => mergeOldWalk previous rest (compSet key value acc)
      | _ => mergeOldWalk previous rest (compSet key value acc)
termination_by 2 * (sizeOf previous + sizeOf entries)
decreasing_by
  all_goals simp_wf
  · have h := sizeOf_compGet hm
    simp only [CompTree.ns.sizeOf_spec] at h
    omega

end

/-- The earlier revision merges consistently: at the same nested collision the
later (current) registry's leaf wins at every depth, matching the cascade
intent stated in the doc comment both revisions carry. -/
theorem mergeComponentsOld_nested_later_wins :
    mergeComponentsOld
      [("ui", .ns [("button", .leaf 2 none none)])]
      [("ui", .ns [("button", .leaf 1 none none)])]
    = [("ui", .ns [("button", .leaf 2 none none)])] := by
  simp [mergeComponentsOld, mergeOldWalk, compGet, compSet]

/-- C1: evaluation of the current `mergeComponents` at the failing input.
Merging parent `{ui: {button: leaf 1}}` (no scoped registry) with the loaded
registry `{ui: {button: leaf 2}}` keeps the PARENT's leaf under the nested
namespace — the nested recursive call `mergeComponents(value, previousValue)`
hands the earlier value the overriding position of the variadic reduce, so
the later registry does not win at depth 1, contradicting the claimed
later-wins rule at every depth. -/
theorem mergeComponentsV_nested_later_loses :
    mergeComponentsV
      [("ui", .ns [("button", .leaf 1 none none)])]
      []
      [("ui", .ns [("button", .leaf 2 none none)])]
    = [("ui", .ns [("button", .leaf 1 none none)])] ∧
    mergeComponentsV
      [("ui", .ns [("button", .leaf 1 none none)])]
      []
      [("ui", .ns [("button", .leaf 2 none none)])]
    ≠ [("ui", .ns [("button", .leaf 2 none none)])] := by
  have h : mergeComponentsV
      [("ui", .ns [("button", .leaf 1 none none)])]
      []
      [("ui", .ns [("button", .leaf 2 none none)])]
    = [("ui", .ns [("button", .leaf 1 none none)])] := by
    simp [mergeComponentsV, mergeTwoC, mergeWalk, compGet, compSet]
  exact ⟨h, by rw [h]; decide⟩

/-! ## Lazy component proxy (`toProxy`, source.ts lines 441-492)

The runtime proxy is modelled as a heap of proxy nodes: each node holds the
registry it wraps (`_components`) and its memoization map (`_proxies`).  A
property access is a state transition on the heap; every object allocation
(a nested proxy or a render closure) draws a fresh identifier from the heap
counter, modelling JavaScript reference identity. -/

def assocGet {ν : Type} (key : Nat) : List (Nat × ν) → Option ν
  | [] => none
  | (k, v) :: rest => if k = key then some v else assocGet key rest

def assocSet {ν : Type} (key : Nat) (v : ν) : List (Nat × ν) → List (Nat × ν)
  | [] => [(key, v)]
  | (k, w) :: rest => if k = key then (k, v) :: rest else (k, w) :: assocSet key v rest

def sGet {ν : Type} (key : String) : List (String × ν) → Option ν
  | [] => none
  | (k, v) :: rest => if k = key then some v else sGet key rest

def sSet {ν : Type} (key : String) (v : ν) : List (String × ν) → List (String × ν)
  | [] => [(key, v)]
  | (k, w) :: rest => if k = key then (k, v) :: rest else (k, w) :: sSet key v rest

/-- Model of `name.toLowerCase()` (ASCII range; component names are plain
identifiers). -/
def jsCharLower (c : Char) : Char :=
  if 'A' ≤ c && c ≤ 'Z' then Char.ofNat (c.toNat + 32) else c

def jsToLower (s : String) : String := String.mk (s.data.map jsCharLower)

/-- One proxy node: the target object `{_components, _proxies}`. -/
structure PNode where
  comps : Components
  proxies : List (String × Nat)
deriving Repr, DecidableEq

/-- The proxy heap: allocated nodes, the allocation counter, and the shared
`extraCode` sink (`type -> (component name -> code)`). -/
structure PHeap where
  nodes : List (Nat × PNode)
  next : Nat
  extra : List (String × List (String × String))
deriving Repr, DecidableEq

def emptyHeap : PHeap := { nodes := [], next := 0, extra := [] }

/-- `toProxy(components, extraCode)`: allocates a proxy node wrapping the
registry and returns its reference. -/
def toProxy (components : Components) (h : PHeap) : Nat × PHeap :=
  (h.next,
    { nodes := assocSet h.next { comps := components, proxies := [] } h.nodes,
      next := h.next + 1,
      extra := h.extra })

/-- Result of a proxy property access: `undefined` (a name owned by the
target object), a nested namespace proxy reference, or a freshly allocated
render callable wrapping the component's render function. -/
inductive PRes where
  | undef
  | nsRef (id : Nat)
  | callable (id : Nat) (render : Nat)
deriving Repr, DecidableEq

inductive PErr where
  | notFound (name : String)
  | badHandle
deriving Repr, DecidableEq

/-- `extraCode.get(type) ?? new Map()`, `code.set(key, value)`,
`extraCode.set(type, code)`. -/
def extraAdd (extra : List (String × List (String × String)))
    (type key value : String) : List (String × List (String × String)) :=
  sSet type (sSet key value ((sGet type extra).getD [])) extra

/-- The proxy `get` trap (source.ts 450-490).  Non-string property keys and
the prototype chain are outside the model: `name in target` is decided
against the target's own `_components`/`_proxies` fields. -/
def proxyGet (h : PHeap) (id : Nat) (name : String) : Except PErr (PRes × PHeap) :=
  match assocGet id h.nodes with
  | none => .error .badHandle
  | some node =>
      if name = "_components" ∨ name = "_proxies" then .ok (.undef, h)
      else
        let key := jsToLower name
        match sGet key node.proxies with
        | some pid => .ok (.nsRef pid, h)
        | none =>
            match compGet key node.comps with
            | none => .error (.notFound name)
            | some (.ns sub) =>
                let pid := h.next
                let node' := { node with proxies := sSet key pid node.proxies }
                .ok (.nsRef pid,
                  { nodes := assocSet pid { comps := sub, proxies := [] }
                      (assocSet id node' h.nodes),
                    next := h.next + 1,
                    extra := h.extra })
            | some (.leaf render css js) =>
                let extra1 := match css with
                  | some c => extraAdd h.extra "css" key c
                  | none => h.extra
                let extra2 := match js with
                  | some j => extraAdd extra1 "js" key j
                  | none => extra1
                .ok (.callable h.next render,
                  { nodes := h.nodes, next := h.next + 1, extra := extra2 })

theorem sGet_sSet_self {ν : Type} (key : String) (v : ν) (l : List (String × ν)) :
    sGet key (sSet key v l) = some v := by
  induction l with
  | nil => simp [sSet, sGet]
  | cons kv rest ih =>
      obtain ⟨k, w⟩ := kv
      by_cases hk : k = key
      · simp [sSet, hk, sGet]
      · simp [sSet, hk, sGet, ih]

theorem sGet_sSet_ne {ν : Type} (key key' : String) (v : ν) (l : List (String × ν))
    (h : key' ≠ key) : sGet key' (sSet key v l) = sGet key' l := by
  induction l with
  | nil => simp [sSet, sGet, Ne.symm h]
  | cons kv rest ih =>
      obtain ⟨k, w⟩ := kv
      by_cases hk : k = key
      · subst hk
        simp [sSet, sGet, Ne.symm h]
      · simp [sSet, hk, sGet, ih]

theorem sSet_self_of_get {ν : Type} (key : String) (v : ν) (l : List (String × ν))
    (h : sGet key l = some v) : sSet key v l = l := by
  induction l with
  | nil => simp [sGet] at h
  | cons kv rest ih =>
      obtain ⟨k, w⟩ := kv
      by_cases hk : k = key
      · subst hk
        have hv : w = v := by simpa [sGet] using h
        subst hv
        simp [sSet]
      · simp only [sGet, if_neg hk] at h
        simp [sSet, hk, ih h]

theorem assocGet_assocSet_self {ν : Type} (key : Nat) (v : ν) (l : List (Nat × ν)) :
    assocGet key (assocSet key v l) = some v := by
  induction l with
  | nil => simp [assocSet, assocGet]
  | cons kv rest ih =>
      obtain ⟨k, w⟩ := kv
      by_cases hk : k = key
      · simp [assocSet, hk, assocGet]
      · simp [assocSet, hk, assocGet, ih]

theorem assocGet_assocSet_ne {ν : Type} (key key' : Nat) (v : ν) (l : List (Nat × ν))
    (h : key' ≠ key) : assocGet key' (assocSet key v l) = assocGet key' l := by
  induction l with
  | nil => simp [assocSet, assocGet, Ne.symm h]
  | cons kv rest ih =>
      obtain ⟨k, w⟩ := kv
      by_cases hk : k = key
      · subst hk
        simp [assocSet, assocGet, Ne.symm h]
      · simp [assocSet, hk, assocGet, ih]

theorem extraAdd_idem (e : List (String × List (String × String)))
    (t k v : String) : extraAdd (extraAdd e t k v) t k v = extraAdd e t k v := by
  unfold extraAdd
  rw [sGet_sSet_self]
  simp only [Option.getD_some]
  rw [sSet_self_of_get _ _ _ (sGet_sSet_self k v _),
    sSet_self_of_get _ _ _ (sGet_sSet_self t _ _)]

theorem extraAdd_idem_ne (e : List (String × List (String × String)))
    (t t' k v v' : String) (ht : t ≠ t') :
    extraAdd (extraAdd (extraAdd e t k v) t' k v') t k v
      = extraAdd (extraAdd e t k v) t' k v' := by
  unfold extraAdd
  rw [sGet_sSet_ne _ _ _ _ ht, sGet_sSet_self]
  simp only [Option.getD_some]
  rw [sSet_self_of_get _ _ _ (sGet_sSet_self k v _),
    sSet_self_of_get _ _ _ ((sGet_sSet_ne _ _ _ _ ht).trans (sGet_sSet_self t _ _))]


/-- Repeated namespace access through the proxy is memoized: the second
access returns the cached proxy reference and leaves the heap unchanged. -/
theorem proxyGet_ns_memoized
    (h : PHeap) (id : Nat) (name : String) (p1 p2 : Nat) (h1 h2 : PHeap)
    (hid : id < h.next)
    (hacc1 : proxyGet h id name = .ok (.nsRef p1, h1))
    (hacc2 : proxyGet h1 id name = .ok (.nsRef p2, h2)) :
    p2 = p1 ∧ h2 = h1 := by
  cases hn : assocGet id h.nodes with
  | none => simp [proxyGet, hn] at hacc1
  | some node =>
      simp only [proxyGet, hn] at hacc1
      by_cases hf : name = "_components" ∨ name = "_proxies"
      · rw [if_pos hf] at hacc1
        simp at hacc1
      · rw [if_neg hf] at hacc1
        cases hp : sGet (jsToLower name) node.proxies with
        | some pid =>
            simp only [hp, Except.ok.injEq, Prod.mk.injEq, PRes.nsRef.injEq] at hacc1
            obtain ⟨hpid, hh⟩ := hacc1
            subst hpid
            subst hh
            simp only [proxyGet, hn, if_neg hf, hp, Except.ok.injEq, Prod.mk.injEq,
              PRes.nsRef.injEq] at hacc2
            exact ⟨hacc2.1.symm, hacc2.2.symm⟩
        | none =>
            cases hc : compGet (jsToLower name) node.comps with
            | none => simp [hp, hc] at hacc1
            | some t =>
                cases t with
                | leaf render css js => simp [hp, hc] at hacc1
                | ns sub =>
                    simp only [hp, hc, Except.ok.injEq, Prod.mk.injEq,
                      PRes.nsRef.injEq] at hacc1
                    obtain ⟨hpid, hh⟩ := hacc1
                    subst hpid
                    subst hh
                    have hne : id ≠ h.next := Nat.ne_of_lt hid
                    have hn2 : assocGet id
                        (assocSet h.next (⟨sub, []⟩ : PNode)
                          (assocSet id
                            (⟨node.comps, sSet (jsToLower name) h.next node.proxies⟩ : PNode)
                            h.nodes))
                        = some (⟨node.comps, sSet (jsToLower name) h.next node.proxies⟩ : PNode) := by
                      rw [assocGet_assocSet_ne _ _ _ _ hne, assocGet_assocSet_self]
                    simp only [proxyGet, hn2, if_neg hf, sGet_sSet_self,
                      Except.ok.injEq, Prod.mk.injEq, PRes.nsRef.injEq] at hacc2
                    exact ⟨hacc2.1.symm, hacc2.2.symm⟩

/-- Repeated leaf access through the proxy returns a behaviourally equal
callable (same render function) but a FRESH closure instance, and leaves the
extraCode sink and the node store unchanged (the style/script entry is keyed
by name, so re-recording overwrites the same entry). -/
theorem proxyGet_leaf_fresh
    (h : PHeap) (id : Nat) (name : String) (c1 r1 c2 r2 : Nat) (h1 h2 : PHeap)
    (hacc1 : proxyGet h id name = .ok (.callable c1 r1, h1))
    (hacc2 : proxyGet h1 id name = .ok (.callable c2 r2, h2)) :
    r2 = r1 ∧ c2 ≠ c1 ∧ h2.nodes = h1.nodes ∧ h2.extra = h1.extra := by
  cases hn : assocGet id h.nodes with
  | none => simp [proxyGet, hn] at hacc1
  | some node =>
      simp only [proxyGet, hn] at hacc1
      by_cases hf : name = "_components" ∨ name = "_proxies"
      · rw [if_pos hf] at hacc1
        simp at hacc1
      · rw [if_neg hf] at hacc1
        cases hp : sGet (jsToLower name) node.proxies with
        | some pid => simp [hp] at hacc1
        | none =>
            cases hc : compGet (jsToLower name) node.comps with
            | none => simp [hp, hc] at hacc1
            | some t =>
                cases t with
                | ns sub => simp [hp, hc] at hacc1
                | leaf render css js =>
                    simp only [hp, hc, Except.ok.injEq, Prod.mk.injEq,
                      PRes.callable.injEq] at hacc1
                    obtain ⟨⟨hc1, hr1⟩, hh⟩ := hacc1
                    subst hc1
                    subst hr1
                    subst hh
                    simp only [proxyGet, hn, if_neg hf, hp, hc, Except.ok.injEq,
                      Prod.mk.injEq, PRes.callable.injEq] at hacc2
                    obtain ⟨⟨hc2, hr2⟩, hh2⟩ := hacc2
                    subst hc2
                    subst hr2
                    subst hh2
                    refine ⟨rfl, by omega, rfl, ?_⟩
                    cases css with
                    | none =>
                        cases js with
                        | none => rfl
                        | some j => exact extraAdd_idem h.extra "js" (jsToLower name) j
                    | some c =>
                        cases js with
                        | none => exact extraAdd_idem h.extra "css" (jsToLower name) c
                        | some j =>
                            show extraAdd (extraAdd
                              (extraAdd (extraAdd h.extra "css" (jsToLower name) c)
                                "js" (jsToLower name) j) "css" (jsToLower name) c)
                              "js" (jsToLower name) j
                              = extraAdd (extraAdd h.extra "css" (jsToLower name) c)
                                "js" (jsToLower name) j
                            rw [extraAdd_idem_ne h.extra "css" "js" (jsToLower name) c j
                              (by decide)]
                            exact extraAdd_idem _ "js" (jsToLower name) j

/-- C3 counterexample: on the single-component registry wrapped by `toProxy`,
accessing the leaf name `"a"` twice yields two DIFFERENT callable instances
(allocation identifiers 1 and 2) — the source builds a fresh arrow function
`(props) => component.render(props)` on every access and only memoizes
namespace proxies, so access is not idempotent at leaf components as claimed. -/
theorem toProxy_leaf_access_not_same_instance :
    toProxy [("a", .leaf 9 (some "c") none)] emptyHeap
      = (0, { nodes := [(0, ⟨[("a", .leaf 9 (some "c") none)], []⟩)],
              next := 1, extra := [] }) ∧
    proxyGet { nodes := [(0, ⟨[("a", .leaf 9 (some "c") none)], []⟩)],
               next := 1, extra := [] } 0 "a"
      = .ok (.callable 1 9,
          { nodes := [(0, ⟨[("a", .leaf 9 (some "c") none)], []⟩)],
            next := 2, extra := [("css", [("a", "c")])] }) ∧
    proxyGet { nodes := [(0, ⟨[("a", .leaf 9 (some "c") none)], []⟩)],
               next := 2, extra := [("css", [("a", "c")])] } 0 "a"
      = .ok (.callable 2 9,
          { nodes := [(0, ⟨[("a", .leaf 9 (some "c") none)], []⟩)],
            next := 3, extra := [("css", [("a", "c")])] }) ∧
    PRes.callable 1 9 ≠ PRes.callable 2 9 :=
  ⟨rfl, rfl, rfl, by decide⟩

/-- C3 (amended): proxy access is idempotent for NAMESPACE entries (the
memoized proxy instance is returned and the heap is untouched on the second
access), while a LEAF access yields a behaviourally identical callable (same
render function) that is nevertheless a fresh instance each time; a leaf's
style/script code is recorded at most once per name in the extraCode sink —
the second access rewrites the same keyed entry, leaving the sink (and the
node store) unchanged. -/
theorem toProxy_access_idem_amended :
    (∀ (h : PHeap) (id : Nat) (name : String) (p1 p2 : Nat) (h1 h2 : PHeap),
       id < h.next →
       proxyGet h id name = .ok (.nsRef p1, h1) →
       proxyGet h1 id name = .ok (.nsRef p2, h2) →
       p2 = p1 ∧ h2 = h1) ∧
    (∀ (h : PHeap) (id : Nat) (name : String) (c1 r1 c2 r2 : Nat) (h1 h2 : PHeap),
       proxyGet h id name = .ok (.callable c1 r1, h1) →
       proxyGet h1 id name = .ok (.callable c2 r2, h2) →
       r2 = r1 ∧ c2 ≠ c1 ∧ h2.nodes = h1.nodes ∧ h2.extra = h1.extra) :=
  ⟨proxyGet_ns_memoized, proxyGet_leaf_fresh⟩

/-- Witness for the amended C3 at concrete registries: a namespace access
twice returns the same memoized proxy and heap; a leaf access twice keeps the
render token, the node store and the extraCode sink while allocating a fresh
callable. -/
theorem toProxy_access_idem_amended_witness :
    ((1 : Nat) = 1 ∧
      ({ nodes := [(0, ⟨[("sub", CompTree.ns [("x", .leaf 7 none none)])], [("sub", 1)]⟩),
                   (1, ⟨[("x", CompTree.leaf 7 none none)], []⟩)],
         next := 2, extra := [] } : PHeap)
        = { nodes := [(0, ⟨[("sub", CompTree.ns [("x", .leaf 7 none none)])], [("sub", 1)]⟩),
                      (1, ⟨[("x", CompTree.leaf 7 none none)], []⟩)],
            next := 2, extra := [] }) ∧
    ((9 : Nat) = 9 ∧ (2 : Nat) ≠ 1 ∧
      ({ nodes := [(0, ⟨[("a", CompTree.leaf 9 (some "c") none)], []⟩)],
         next := 3, extra := [("css", [("a", "c")])] } : PHeap).nodes
        = ({ nodes := [(0, ⟨[("a", CompTree.leaf 9 (some "c") none)], []⟩)],
             next := 2, extra := [("css", [("a", "c")])] } : PHeap).nodes ∧
      ({ nodes := [(0, ⟨[("a", CompTree.leaf 9 (some "c") none)], []⟩)],
         next := 3, extra := [("css", [("a", "c")])] } : PHeap).extra
        = ({ nodes := [(0, ⟨[("a", CompTree.leaf 9 (some "c") none)], []⟩)],
             next := 2, extra := [("css", [("a", "c")])] } : PHeap).extra) :=
  ⟨toProxy_access_idem_amended.1
      { nodes := [(0, ⟨[("sub", CompTree.ns [("x", .leaf 7 none none)])], []⟩)],
        next := 1, extra := [] } 0 "sub" 1 1 _ _ (by decide) rfl rfl,
    toProxy_access_idem_amended.2
      { nodes := [(0, ⟨[("a", CompTree.leaf 9 (some "c") none)], []⟩)],
        next := 1, extra := [] } 0 "a" 1 9 2 9 _ _ rfl rfl⟩

/-! ## Filename date parser (`parseDate`, source.ts lines 1047-1069)

The regex
`^(\d{4})-(\d\d)-(\d\d)(?:-(\d\d)-(\d\d)(?:-(\d\d))?)?(?:_|-)(.*)` is
embedded as a backtracking parser over the character list: the engine first
tries the full `-hh-mm-ss` time group, then `-hh-mm`, then no time group at
all, each followed by the mandatory `_`/`-` separator; the `.*` slug capture
stops at the first line terminator (JS `.` without the `s` flag).  The parsed
fields feed `Date.UTC`, which is modelled in epoch milliseconds with the
ECMAScript MakeFullYear rule (a year argument 0–99 reads as 1900+year) and
free calendar rollover of out-of-range fields; the constructed `Date` object
is always truthy, so the `if (date)` guard never rejects. -/

def digitVal (c : Char) : Nat := c.toNat - 48

def val2 (a b : Char) : Nat := 10 * digitVal a + digitVal b

def val4 (a b c d : Char) : Nat :=
  1000 * digitVal a + 100 * digitVal b + 10 * digitVal c + digitVal d

def two? : List Char → Option (Nat × List Char)
  | c1 :: c2 :: rest =>
      if c1.isDigit && c2.isDigit then some (val2 c1 c2, rest) else none
  | _ => none

def four? : List Char → Option (Nat × List Char)
  | c1 :: c2 :: c3 :: c4 :: rest =>
      if c1.isDigit && c2.isDigit && c3.isDigit && c4.isDigit then
        some (val4 c1 c2 c3 c4, rest)
      else none
  | _ => none

def dash2? : List Char → Option (Nat × List Char)
  | c :: rest => if c = '-' then two? rest else none
  | [] => none

def isSepChar (c : Char) : Bool := c = '_' || c = '-'

def sep? : List Char → Option (List Char)
  | c :: rest => if isSepChar c then some rest else none
  | [] => none

def isLineTerm (c : Char) : Bool :=
  c = '\n' || c = '\r' || c.toNat = 0x2028 || c.toNat = 0x2029

/-- Days from 1970-01-01 to year `y`, month `m` (1–12), day `d` in the
proleptic Gregorian calendar (`d` may lie outside the month, adding linearly). -/
def daysFromCivil (y : Int) (m : Nat) (d : Int) : Int :=
  let yAdj := if m ≤ 2 then y - 1 else y
  let era := Int.fdiv yAdj 400
  let yoe := yAdj - era * 400
  let mp : Nat := if 2 < m then m - 3 else m + 9
  let doy : Int := (((153 * mp + 2) / 5 : Nat) : Int) + (d - 1)
  let doe := yoe * 365 + Int.fdiv yoe 4 - Int.fdiv yoe 100 + doy
  era * 146097 + doe - 719468

/-- `Date.UTC(y, monthIndex, d, h, min, s)` in epoch milliseconds: the
month index rolls into the year, out-of-range day/time fields add linearly,
and a year argument 0–99 is read as 1900+year (ECMAScript MakeFullYear). -/
def jsDateUTC (y mIdx d h mi s : Int) : Int :=
  let yr := if 0 ≤ y ∧ y ≤ 99 then 1900 + y else y
  let ym := yr + Int.fdiv mIdx 12
  let mn := Int.fmod mIdx 12
  let days := daysFromCivil ym (mn.toNat + 1) d
  (((days * 24 + h) * 60 + mi) * 60 + s) * 1000

/-- Modelled from the spec: "a UTC instant built from the captured fields"
taken at face value — the proleptic Gregorian UTC instant of exactly the
civil fields `y-m-d h:mi:s`, with no year remapping.  Used to compare the
code's `Date.UTC` semantics against the claim's wording. -/
def specUTCInstant (y : Int) (m : Nat) (d h mi s : Int) : Int :=
  (((daysFromCivil y m d * 24 + h) * 60 + mi) * 60 + s) * 1000

/-- The three time alternatives the regex engine tries after the mandatory
`YYYY-MM-DD` head, in greedy order: full `-hh-mm-ss`, then `-hh-mm`, then no
time group; each must be followed by the `_`/`-` separator. -/
def timeAltFull (year month day : Nat) (cs3 : List Char) : Option (List Char × Int) :=
  match dash2? cs3 with
  | some (hh, r1) =>
      match dash2? r1 with
      | some (mi, r2) =>
          match dash2? r2 with
          | some (ss, r3) =>
              match sep? r3 with
              | some rest =>
                  some (rest, jsDateUTC year ((month : Int) - 1) day hh mi ss)
              | none => none
          | none => none
      | none => none
  | none => none

def timeAltHm (year month day : Nat) (cs3 : List Char) : Option (List Char × Int) :=
  match dash2? cs3 with
  | some (hh, r1) =>
      match dash2? r1 with
      | some (mi, r2) =>
          match sep? r2 with
          | some rest =>
              some (rest, jsDateUTC year ((month : Int) - 1) day hh mi 0)
          | none => none
      | none => none
  | none => none

def timeAltShort (year month day : Nat) (cs3 : List Char) : Option (List Char × Int) :=
  match sep? cs3 with
  | some rest => some (rest, jsDateUTC year ((month : Int) - 1) day 0 0 0)
  | none => none

/-- The regex match against the character list: returns the captured slug
characters (before line-terminator truncation) and the `Date.UTC` value. -/
def parseCore (cs : List Char) : Option (List Char × Int) :=
  match four? cs with
  | none => none
  | some (year, cs1) =>
      match dash2? cs1 with
      | none => none
      | some (month, cs2) =>
          match dash2? cs2 with
          | none => none
          | some (day, cs3) =>
              timeAltFull year month day cs3
                <|> timeAltHm year month day cs3
                <|> timeAltShort year month day cs3

/-- `parseDate(slug)`: on a regex match, the remainder after the separator
(truncated at the first line terminator by the `.*` capture) and the date;
otherwise the original string and no date. -/
def parseDate (slug : String) : String × Option Int :=
  match parseCore slug.data with
  | some (rest, t) => (String.mk (rest.takeWhile fun c => !isLineTerm c), some t)
  | none => (slug, none)


theorem two?_eq_some {cs : List Char} {n : Nat} {r : List Char}
    (h : two? cs = some (n, r)) :
    ∃ a b, cs = a :: b :: r ∧ (a.isDigit && b.isDigit) = true ∧ n = val2 a b := by
  match cs with
  | [] => simp [two?] at h
  | [a] => simp [two?] at h
  | a :: b :: rest =>
      by_cases hd : (a.isDigit && b.isDigit) = true
      · simp only [two?, if_pos hd, Option.some.injEq, Prod.mk.injEq] at h
        exact ⟨a, b, by rw [h.2], hd, h.1.symm⟩
      · simp [two?, hd] at h

theorem four?_eq_some {cs : List Char} {n : Nat} {r : List Char}
    (h : four? cs = some (n, r)) :
    ∃ a b c d, cs = a :: b :: c :: d :: r ∧
      (a.isDigit && b.isDigit && c.isDigit && d.isDigit) = true ∧ n = val4 a b c d := by
  match cs with
  | [] => simp [four?] at h
  | [a] => simp [four?] at h
  | [a, b] => simp [four?] at h
  | [a, b, c] => simp [four?] at h
  | a :: b :: c :: d :: rest =>
      by_cases hd : (a.isDigit && b.isDigit && c.isDigit && d.isDigit) = true
      · simp only [four?, if_pos hd, Option.some.injEq, Prod.mk.injEq] at h
        exact ⟨a, b, c, d, by rw [h.2], hd, h.1.symm⟩
      · simp [four?, hd] at h

theorem dash2?_eq_some {cs : List Char} {n : Nat} {r : List Char}
    (h : dash2? cs = some (n, r)) :
    ∃ a b, cs = '-' :: a :: b :: r ∧ (a.isDigit && b.isDigit) = true ∧ n = val2 a b := by
  match cs with
  | [] => simp [dash2?] at h
  | c :: rest =>
      by_cases hc : c = '-'
      · subst hc
        simp only [dash2?, if_pos rfl] at h
        obtain ⟨a, b, hr, hd, hn⟩ := two?_eq_some h
        exact ⟨a, b, by rw [hr], hd, hn⟩
      · simp [dash2?, hc] at h

theorem sep?_eq_some {cs : List Char} {r : List Char}
    (h : sep? cs = some r) :
    ∃ c, cs = c :: r ∧ isSepChar c = true := by
  match cs with
  | [] => simp [sep?] at h
  | c :: rest =>
      by_cases hc : isSepChar c = true
      · simp only [sep?, if_pos hc, Option.some.injEq] at h
        exact ⟨c, by rw [h], hc⟩
      · simp [sep?, hc] at h


inductive TimeF where
  | short
  | hm (h1 h2 i1 i2 : Char)
  | hms (h1 h2 i1 i2 s1 s2 : Char)
deriving Repr, DecidableEq

def TimeF.chars : TimeF → List Char
  | .short => []
  | .hm a b c d => ['-', a, b, '-', c, d]
  | .hms a b c d e f => ['-', a, b, '-', c, d, '-', e, f]

def TimeF.digitsOk : TimeF → Bool
  | .short => true
  | .hm a b c d => a.isDigit && b.isDigit && c.isDigit && d.isDigit
  | .hms a b c d e f =>
      a.isDigit && b.isDigit && c.isDigit && d.isDigit && e.isDigit && f.isDigit

def TimeF.hour : TimeF → Nat
  | .short => 0
  | .hm a b _ _ => val2 a b
  | .hms a b _ _ _ _ => val2 a b

def TimeF.minute : TimeF → Nat
  | .short => 0
  | .hm _ _ c d => val2 c d
  | .hms _ _ c d _ _ => val2 c d

def TimeF.second : TimeF → Nat
  | .short => 0
  | .hm _ _ _ _ => 0
  | .hms _ _ _ _ e f => val2 e f

/-- A name with the claimed leading shape `YYYY-MM-DD[-hh-mm[-ss]]` followed
by `_` or `-` and an arbitrary remainder. -/
def dateNameChars (y1 y2 y3 y4 m1 m2 d1 d2 : Char) (tf : TimeF) (sepc : Char)
    (rest : List Char) : List Char :=
  y1 :: y2 :: y3 :: y4 :: '-' :: m1 :: m2 :: '-' :: d1 :: d2 ::
    (tf.chars ++ sepc :: rest)

theorem isSome_orElse {α : Type} (a b : Option α) :
    (a <|> b).isSome = (a.isSome || b.isSome) := by
  cases a <;> rfl

theorem parseCore_complete (y1 y2 y3 y4 m1 m2 d1 d2 : Char) (tf : TimeF)
    (sepc : Char) (rest : List Char)
    (hy : (y1.isDigit && y2.isDigit && y3.isDigit && y4.isDigit) = true)
    (hmo : (m1.isDigit && m2.isDigit) = true)
    (hda : (d1.isDigit && d2.isDigit) = true)
    (ht : tf.digitsOk = true)
    (hs : isSepChar sepc = true) :
    (parseCore (dateNameChars y1 y2 y3 y4 m1 m2 d1 d2 tf sepc rest)).isSome = true := by
  obtain ⟨hm1, hm2⟩ := Bool.and_eq_true_iff.mp hmo
  obtain ⟨hd1, hd2⟩ := Bool.and_eq_true_iff.mp hda
  cases tf with
  | short =>
      simp [parseCore, dateNameChars, TimeF.chars, four?, dash2?, two?, sep?,
        timeAltFull, timeAltHm, timeAltShort,
        isSome_orElse, hy, hm1, hm2, hd1, hd2, hs]
  | hm a b c d =>
      simp only [TimeF.digitsOk, Bool.and_eq_true] at ht
      obtain ⟨⟨⟨ha, hb⟩, hc⟩, hd⟩ := ht
      simp [parseCore, dateNameChars, TimeF.chars, four?, dash2?, two?, sep?,
        timeAltFull, timeAltHm, timeAltShort,
        isSome_orElse, hy, hm1, hm2, hd1, hd2, hs, ha, hb, hc, hd]
  | hms a b c d e f =>
      simp only [TimeF.digitsOk, Bool.and_eq_true] at ht
      obtain ⟨⟨⟨⟨⟨ha, hb⟩, hc⟩, hd⟩, he⟩, hf⟩ := ht
      simp [parseCore, dateNameChars, TimeF.chars, four?, dash2?, two?, sep?,
        timeAltFull, timeAltHm, timeAltShort,
        isSome_orElse, hy, hm1, hm2, hd1, hd2, hs, ha, hb, hc, hd, he, hf]

theorem timeAltFull_eq_some {year month day : Nat} {cs3 : List Char}
    {res : List Char × Int} (h : timeAltFull year month day cs3 = some res) :
    ∃ a b c d e f sepc rest,
      cs3 = '-' :: a :: b :: '-' :: c :: d :: '-' :: e :: f :: sepc :: rest ∧
      (a.isDigit && b.isDigit && c.isDigit && d.isDigit && e.isDigit && f.isDigit) = true ∧
      isSepChar sepc = true ∧
      res = (rest, jsDateUTC year ((month : Int) - 1) day (val2 a b) (val2 c d) (val2 e f)) := by
  cases h1 : dash2? cs3 with
  | none => simp [timeAltFull, h1] at h
  | some p =>
      obtain ⟨hh, r1⟩ := p
      cases h2 : dash2? r1 with
      | none => simp [timeAltFull, h1, h2] at h
      | some q =>
          obtain ⟨mi, r2⟩ := q
          cases h3 : dash2? r2 with
          | none => simp [timeAltFull, h1, h2, h3] at h
          | some w =>
              obtain ⟨ss, r3⟩ := w
              cases h4 : sep? r3 with
              | none => simp [timeAltFull, h1, h2, h3, h4] at h
              | some rest =>
                  simp only [timeAltFull, h1, h2, h3, h4, Option.some.injEq] at h
                  obtain ⟨a, b, hE1, hD1, hV1⟩ := dash2?_eq_some h1
                  obtain ⟨c, d, hE2, hD2, hV2⟩ := dash2?_eq_some h2
                  obtain ⟨e, f, hE3, hD3, hV3⟩ := dash2?_eq_some h3
                  obtain ⟨sepc, hE4, hS⟩ := sep?_eq_some h4
                  subst hE1 hE2 hE3 hE4 hV1 hV2 hV3
                  refine ⟨a, b, c, d, e, f, sepc, rest, by simp, ?_, hS, h.symm⟩
                  simp only [Bool.and_eq_true] at hD1 hD2 hD3 ⊢
                  exact ⟨⟨⟨⟨⟨hD1.1, hD1.2⟩, hD2.1⟩, hD2.2⟩, hD3.1⟩, hD3.2⟩

theorem timeAltHm_eq_some {year month day : Nat} {cs3 : List Char}
    {res : List Char × Int} (h : timeAltHm year month day cs3 = some res) :
    ∃ a b c d sepc rest,
      cs3 = '-' :: a :: b :: '-' :: c :: d :: sepc :: rest ∧
      (a.isDigit && b.isDigit && c.isDigit && d.isDigit) = true ∧
      isSepChar sepc = true ∧
      res = (rest, jsDateUTC year ((month : Int) - 1) day (val2 a b) (val2 c d) 0) := by
  cases h1 : dash2? cs3 with
  | none => simp [timeAltHm, h1] at h
  | some p =>
      obtain ⟨hh, r1⟩ := p
      cases h2 : dash2? r1 with
      | none => simp [timeAltHm, h1, h2] at h
      | some q =>
          obtain ⟨mi, r2⟩ := q
          cases h4 : sep? r2 with
          | none => simp [timeAltHm, h1, h2, h4] at h
          | some rest =>
              simp only [timeAltHm, h1, h2, h4, Option.some.injEq] at h
              obtain ⟨a, b, hE1, hD1, hV1⟩ := dash2?_eq_some h1
              obtain ⟨c, d, hE2, hD2, hV2⟩ := dash2?_eq_some h2
              obtain ⟨sepc, hE4, hS⟩ := sep?_eq_some h4
              subst hE1 hE2 hE4 hV1 hV2
              refine ⟨a, b, c, d, sepc, rest, by simp, ?_, hS, h.symm⟩
              simp only [Bool.and_eq_true] at hD1 hD2 ⊢
              exact ⟨⟨⟨hD1.1, hD1.2⟩, hD2.1⟩, hD2.2⟩

theorem timeAltShort_eq_some {year month day : Nat} {cs3 : List Char}
    {res : List Char × Int} (h : timeAltShort year month day cs3 = some res) :
    ∃ sepc rest,
      cs3 = sepc :: rest ∧ isSepChar sepc = true ∧
      res = (rest, jsDateUTC year ((month : Int) - 1) day 0 0 0) := by
  cases h4 : sep? cs3 with
  | none => simp [timeAltShort, h4] at h
  | some rest =>
      simp only [timeAltShort, h4, Option.some.injEq] at h
      obtain ⟨sepc, hE4, hS⟩ := sep?_eq_some h4
      subst hE4
      exact ⟨sepc, rest, rfl, hS, h.symm⟩

theorem parseCore_sound {cs : List Char} {res : List Char × Int}
    (h : parseCore cs = some res) :
    ∃ y1 y2 y3 y4 mo1 mo2 da1 da2 tf sepc rest,
      cs = dateNameChars y1 y2 y3 y4 mo1 mo2 da1 da2 tf sepc rest ∧
      (y1.isDigit && y2.isDigit && y3.isDigit && y4.isDigit) = true ∧
      (mo1.isDigit && mo2.isDigit) = true ∧
      (da1.isDigit && da2.isDigit) = true ∧
      TimeF.digitsOk tf = true ∧
      isSepChar sepc = true ∧
      res = (rest,
        jsDateUTC (val4 y1 y2 y3 y4) ((val2 mo1 mo2 : Int) - 1) (val2 da1 da2)
          (TimeF.hour tf) (TimeF.minute tf) (TimeF.second tf)) := by
  cases h4 : four? cs with
  | none => simp [parseCore, h4] at h
  | some p =>
      obtain ⟨year, cs1⟩ := p
      cases hmo4 : dash2? cs1 with
      | none => simp [parseCore, h4, hmo4] at h
      | some q =>
          obtain ⟨month, cs2⟩ := q
          cases hda4 : dash2? cs2 with
          | none => simp [parseCore, h4, hmo4, hda4] at h
          | some w =>
              obtain ⟨day, cs3⟩ := w
              simp only [parseCore, h4, hmo4, hda4] at h
              obtain ⟨y1, y2, y3, y4, hcsE, hyD, hyV⟩ := four?_eq_some h4
              obtain ⟨mo1, mo2, hcs1E, hmoD, hmoV⟩ := dash2?_eq_some hmo4
              obtain ⟨da1, da2, hcs2E, hdaD, hdaV⟩ := dash2?_eq_some hda4
              subst hcsE hcs1E hcs2E hyV hmoV hdaV
              rw [Option.orElse_eq_some] at h
              rcases h with h | ⟨hA, h⟩
              · obtain ⟨a, b, c, d, e, f, sepc, rest, hE, hD, hS, hres⟩ :=
                  timeAltFull_eq_some h
                subst hE
                exact ⟨y1, y2, y3, y4, mo1, mo2, da1, da2, .hms a b c d e f,
                  sepc, rest, by simp [dateNameChars, TimeF.chars], hyD, hmoD,
                  hdaD, hD, hS,
                  by simpa [TimeF.hour, TimeF.minute, TimeF.second] using hres⟩
              · rw [Option.orElse_eq_some] at h
                rcases h with h | ⟨hB, h⟩
                · obtain ⟨a, b, c, d, sepc, rest, hE, hD, hS, hres⟩ :=
                    timeAltHm_eq_some h
                  subst hE
                  exact ⟨y1, y2, y3, y4, mo1, mo2, da1, da2, .hm a b c d,
                    sepc, rest, by simp [dateNameChars, TimeF.chars], hyD, hmoD,
                    hdaD, hD, hS,
                    by simpa [TimeF.hour, TimeF.minute, TimeF.second] using hres⟩
                · obtain ⟨sepc, rest, hE, hS, hres⟩ := timeAltShort_eq_some h
                  subst hE
                  exact ⟨y1, y2, y3, y4, mo1, mo2, da1, da2, .short,
                    sepc, rest, by simp [dateNameChars, TimeF.chars], hyD, hmoD,
                    hdaD, rfl, hS,
                    by simpa [TimeF.hour, TimeF.minute, TimeF.second] using hres⟩


/-- C7 counterexample: the name `"0099-01-01-hi"` matches the date shape, but
the produced instant is NOT built from the captured fields: `Date.UTC` reads
a year argument 0–99 as 1900+year, so the result is 1999-01-01T00:00:00Z
rather than 0099-01-01T00:00:00Z. -/
theorem parseDate_year_window_counterexample :
    parseDate "0099-01-01-hi" = ("hi", some (jsDateUTC 99 0 1 0 0 0)) ∧
    jsDateUTC 99 0 1 0 0 0 = specUTCInstant 1999 1 1 0 0 0 ∧
    specUTCInstant 1999 1 1 0 0 0 ≠ specUTCInstant 99 1 1 0 0 0 :=
  ⟨by decide, by decide, by decide⟩

/-- C7 (amended): the date parser recognizes exactly a leading `YYYY-MM-DD`,
`YYYY-MM-DD-hh-mm` or `YYYY-MM-DD-hh-mm-ss` pattern followed by `_` or `-`:
on a match it returns the remainder after the separator (truncated at the
first line terminator, the JS `.*` capture) together with the `Date.UTC`
instant of the captured fields — missing hour/minute/second taken as 0, and a
year field 0–99 read as 1900+year per ECMAScript; on no match it returns the
original string with no date.  In particular `"2024-03-05-hello"` yields
`("hello", 2024-03-05T00:00:00Z)` and `"hello"` yields `("hello", absent)`. -/
theorem parseDate_shape_amended :
    (∀ (s : String) (r : String) (t : Int),
       parseDate s = (r, some t) →
       ∃ y1 y2 y3 y4 mo1 mo2 da1 da2 tf sepc rest,
         s.data = dateNameChars y1 y2 y3 y4 mo1 mo2 da1 da2 tf sepc rest ∧
         (y1.isDigit && y2.isDigit && y3.isDigit && y4.isDigit) = true ∧
         (mo1.isDigit && mo2.isDigit) = true ∧
         (da1.isDigit && da2.isDigit) = true ∧
         TimeF.digitsOk tf = true ∧
         isSepChar sepc = true ∧
         t = jsDateUTC (val4 y1 y2 y3 y4) ((val2 mo1 mo2 : Int) - 1)
               (val2 da1 da2) (TimeF.hour tf) (TimeF.minute tf) (TimeF.second tf) ∧
         r = String.mk (rest.takeWhile fun c => !isLineTerm c)) ∧
    (∀ (y1 y2 y3 y4 mo1 mo2 da1 da2 : Char) (tf : TimeF) (sepc : Char)
       (rest : List Char),
       (y1.isDigit && y2.isDigit && y3.isDigit && y4.isDigit) = true →
       (mo1.isDigit && mo2.isDigit) = true →
       (da1.isDigit && da2.isDigit) = true →
       TimeF.digitsOk tf = true →
       isSepChar sepc = true →
       ((parseDate (String.mk
           (dateNameChars y1 y2 y3 y4 mo1 mo2 da1 da2 tf sepc rest))).2).isSome
         = true) ∧
    (∀ s : String, (parseDate s).2 = none → (parseDate s).1 = s) ∧
    parseDate "2024-03-05-hello" = ("hello", some 1709596800000) ∧
    parseDate "hello" = ("hello", none) := by
  refine ⟨?_, ?_, ?_, by decide, by decide⟩
  · intro s r t hp
    cases hc : parseCore s.data with
    | none => simp [parseDate, hc] at hp
    | some q =>
        obtain ⟨rest0, t0⟩ := q
        simp only [parseDate, hc, Prod.mk.injEq, Option.some.injEq] at hp
        obtain ⟨hr, ht0⟩ := hp
        obtain ⟨y1, y2, y3, y4, mo1, mo2, da1, da2, tf, sepc, rest,
          hE, hyD, hmoD, hdaD, htD, hS, hres⟩ := parseCore_sound hc
        obtain ⟨hrest, hval⟩ := Prod.mk.injEq .. |>.mp hres
        subst hrest
        exact ⟨y1, y2, y3, y4, mo1, mo2, da1, da2, tf, sepc, rest0,
          hE, hyD, hmoD, hdaD, htD, hS, ht0 ▸ hval, hr.symm⟩
  · intro y1 y2 y3 y4 mo1 mo2 da1 da2 tf sepc rest hy hmo hda ht hs
    have hc := parseCore_complete y1 y2 y3 y4 mo1 mo2 da1 da2 tf sepc rest
      hy hmo hda ht hs
    cases hp : parseCore (dateNameChars y1 y2 y3 y4 mo1 mo2 da1 da2 tf sepc rest) with
    | none => rw [hp] at hc; simp at hc
    | some q => simp [parseDate, hp]
  · intro s hnone
    cases hc : parseCore s.data with
    | none => simp [parseDate, hc]
    | some q =>
        obtain ⟨rest0, t0⟩ := q
        simp [parseDate, hc] at hnone

/-- Witness for the amended C7: the shape-completeness conjunct applied at
the concrete decomposition of `"2024-03-05-hello"`. -/
theorem parseDate_shape_amended_witness :
    ((parseDate (String.mk
        (dateNameChars '2' '0' '2' '4' '0' '3' '0' '5' TimeF.short '-'
          ['h', 'e', 'l', 'l', 'o']))).2).isSome = true :=
  parseDate_shape_amended.2.1 '2' '0' '2' '4' '0' '3' '0' '5' TimeF.short '-'
    ['h', 'e', 'l', 'l', 'o'] (by decide) (by decide) (by decide) (by decide)
    (by decide)

/-- C10: the parser does not range-check the captured numeric fields — every
name whose leading digits match the shape `NNNN-NN-NN(-NN-NN(-NN)?)?`
followed by `_` or `-` produces a date, with no bound demanded of the month,
day, hour, minute or second values; the excess rolls over through the UTC
calendar arithmetic of `Date.UTC`, e.g. a month field of 13 in
`"2024-13-01-x"` yields January 1st of 2025 instead of a failed parse. -/
theorem parseDate_no_range_check :
    (∀ (y1 y2 y3 y4 mo1 mo2 da1 da2 : Char) (tf : TimeF) (sepc : Char)
       (rest : List Char),
       (y1.isDigit && y2.isDigit && y3.isDigit && y4.isDigit) = true →
       (mo1.isDigit && mo2.isDigit) = true →
       (da1.isDigit && da2.isDigit) = true →
       TimeF.digitsOk tf = true →
       isSepChar sepc = true →
       ∃ r t, parseDate (String.mk
           (dateNameChars y1 y2 y3 y4 mo1 mo2 da1 da2 tf sepc rest))
         = (r, some t)) ∧
    parseDate "2024-13-01-x" = ("x", some (specUTCInstant 2025 1 1 0 0 0)) := by
  constructor
  · intro y1 y2 y3 y4 mo1 mo2 da1 da2 tf sepc rest hy hmo hda ht hs
    have hc := parseCore_complete y1 y2 y3 y4 mo1 mo2 da1 da2 tf sepc rest
      hy hmo hda ht hs
    cases hp : parseCore (dateNameChars y1 y2 y3 y4 mo1 mo2 da1 da2 tf sepc rest) with
    | none => rw [hp] at hc; simp at hc
    | some q =>
        obtain ⟨rest0, t0⟩ := q
        exact ⟨String.mk (rest0.takeWhile fun c => !isLineTerm c), t0,
          by simp [parseDate, hp]⟩
  · decide

/-- Witness for C10 at an out-of-range concrete input: month 99 and day 99
still produce a date. -/
theorem parseDate_no_range_check_witness :
    ∃ r t, parseDate (String.mk
        (dateNameChars '2' '0' '2' '4' '9' '9' '9' '9' TimeF.short '_'
          ['x'])) = (r, some t) :=
  parseDate_no_range_check.1 '2' '0' '2' '4' '9' '9' '9' '9' TimeF.short '_'
    ['x'] (by decide) (by decide) (by decide) (by decide) (by decide)


/-! ## Posix path helpers (Node `posix` from `deps/path.ts`)

`join`, `normalize`, `basename` and `dirname` follow Node's posix
implementation: `join` concatenates the non-empty parts with `/` and
normalizes; `normalize` collapses repeated separators, resolves `.` and `..`
segments (dropping `..` at the root of an absolute path) and preserves a
trailing slash; `basename`/`dirname` strip trailing separators and split at
the last one. -/

def splitSeg : List Char → List (List Char)
  | [] => [[]]
  | c :: rest =>
      if c = '/' then [] :: splitSeg rest
      else
        match splitSeg rest with
        | s :: ss => (c :: s) :: ss
        | [] => [[c]]

def joinSegs : List (List Char) → List Char
  | [] => []
  | [s] => s
  | s :: rest => s ++ '/' :: joinSegs rest

def isAbsL : List Char → Bool
  | c :: _ => c = '/'
  | [] => false

def hasTrailL (cs : List Char) : Bool :=
  match cs.getLast? with
  | some c => c = '/'
  | none => false

/-- One step of Node's `normalizeString` segment walk. -/
def normSegsStep (abs : Bool) (acc : List (List Char)) (seg : List Char) :
    List (List Char) :=
  if seg = ['.'] then acc
  else if seg = ['.', '.'] then
    if acc ≠ [] ∧ acc.getLast? ≠ some ['.', '.'] then acc.dropLast
    else if abs then acc else acc ++ [seg]
  else acc ++ [seg]

def pathNormalizeL (cs : List Char) : List Char :=
  match cs with
  | [] => ['.']
  | _ =>
      let abs := isAbsL cs
      let trail := hasTrailL cs
      let segs := (splitSeg cs).filter (· ≠ [])
      let out := segs.foldl (normSegsStep abs) []
      match out with
      | [] =>
          if abs then ['/']
          else if trail then ['.', '/'] else ['.']
      | _ =>
          (if abs then '/' :: joinSegs out else joinSegs out)
            ++ (if trail then ['/'] else [])

def pathNormalize (s : String) : String := String.mk (pathNormalizeL s.data)

/-- Node `posix.join(a, b)` (the builder only ever joins two parts). -/
def pjoin (a b : String) : String :=
  match [a.data, b.data].filter (· ≠ []) with
  | [] => "."
  | parts => String.mk (pathNormalizeL (joinSegs parts))

def isSlash (c : Char) : Bool := c = '/'

def notSlash (c : Char) : Bool := c ≠ '/'

def dropTrailSlashes (cs : List Char) : List Char :=
  ((cs.reverse.dropWhile isSlash).reverse)

/-- Node `posix.basename`. -/
def pbasenameL (cs : List Char) : List Char :=
  ((dropTrailSlashes cs).reverse.takeWhile notSlash).reverse

def pbasename (s : String) : String := String.mk (pbasenameL s.data)

/-- Node `posix.dirname`. -/
def pdirnameL (cs : List Char) : List Char :=
  match dropTrailSlashes cs with
  | [] => if isAbsL cs then ['/'] else ['.']
  | stripped =>
      match dropTrailSlashes (stripped.reverse.dropWhile notSlash).reverse with
      | [] => if stripped.reverse.dropWhile notSlash = [] then ['.'] else ['/']
      | pre => pre

def pdirname (s : String) : String := String.mk (pdirnameL s.data)

/-! ## URL resolver (`getUrl`, source.ts lines 1132-1196) -/

/-- Modelled from the spec: `getExtension` lives in `core/utils.ts`, which is
not part of the sources; per the spec it yields the trailing extension of the
final path segment ("the source path carries a non-page, non-asset
extension"), i.e. posix `extname`: the suffix from the last `.` of the
basename, empty when the basename has no dot or only a leading one. -/
def getExtension (path : String) : String :=
  let base := pbasenameL path.data
  let afterDotRev := base.reverse.takeWhile (· ≠ '.')
  if afterDotRev.length + 1 ≤ base.length ∧ afterDotRev.length + 1 ≠ base.length
  then String.mk ('.' :: afterDotRev.reverse)
  else ""

/-- JS `s.startsWith(pre)`. -/
def jsStartsWith (s pre : String) : Bool := pre.data.isPrefixOf s.data

/-- `normalizeUrl` (source.ts 1199-1204): strips a trailing `/index.html`
down to the slash. -/
def normalizeUrl (url : String) : String :=
  if ("/index.html").data.isSuffixOf url.data
  then String.mk (url.data.take (url.data.length - 10))
  else url

/-- The page object as `getUrl` and the builder see it: the source descriptor
(`src.path` with the format extension already stripped, `src.ext`,
`src.slug`, the `asset` flag) and the merged data record. -/
structure PageM where
  srcPath : String
  srcExt : String
  srcSlug : String
  srcAsset : Bool
  data : Rec
deriving Repr, DecidableEq

/-- The `Exception` contexts `getUrl` can throw: both carry the page and the
offending url value (source.ts 1162-1174). -/
inductive UrlErr where
  | badStart (page : PageM) (url : JsValue)
  | badType (page : PageM) (url : JsValue)
deriving Repr, DecidableEq

/-- `getUrl(page, prettyUrls, parentPath)`: `Ok none` models the `false`
return (page suppressed); url functions are opaque tokens applied through
`fenv`. -/
def getUrl (fenv : Nat → PageM → JsValue) (page : PageM) (prettyUrls : Bool)
    (parentPath : String) : Except UrlErr (Option String) :=
  let url0 := recGet "url" page.data
  if url0 = some (.bool false) then .ok none
  else
    let url1 := match url0 with
      | some (.func tok) => some (fenv tok page)
      | _ => url0
    match url1 with
    | some (.str u) =>
        if jsStartsWith u "./" || jsStartsWith u "../" then
          .ok (some (normalizeUrl (pjoin parentPath u)))
        else if jsStartsWith u "/" then
          .ok (some (normalizeUrl u))
        else .error (.badStart page (.str u))
    | none =>
        let u := pjoin parentPath page.srcSlug
        let ext := getExtension page.srcPath
        if ext ≠ "" then .ok (some (u ++ ext))
        else if page.srcAsset then .ok (some (u ++ page.srcExt))
        else if prettyUrls then
          if pbasename u = "index" then .ok (some (pjoin (pdirname u) "/"))
          else .ok (some (pjoin u "/"))
        else .ok (some (u ++ ".html"))
    | some v => .error (.badType page v)


/-- C9: a string url (given directly or returned by a url function) that
starts with none of `/`, `./`, `../` makes URL resolution fail with an error
carrying the page and the offending url value; a url of any unsupported type
other than string, function, `false` or absent fails likewise. -/
theorem getUrl_invalid_url_errors :
    (∀ (fenv : Nat → PageM → JsValue) (page : PageM) (pretty : Bool)
       (parentPath : String) (u : String),
       recGet "url" page.data = some (.str u) →
       jsStartsWith u "/" = false → jsStartsWith u "./" = false →
       jsStartsWith u "../" = false →
       getUrl fenv page pretty parentPath = .error (.badStart page (.str u))) ∧
    (∀ (fenv : Nat → PageM → JsValue) (page : PageM) (pretty : Bool)
       (parentPath : String) (tok : Nat) (u : String),
       recGet "url" page.data = some (.func tok) →
       fenv tok page = .str u →
       jsStartsWith u "/" = false → jsStartsWith u "./" = false →
       jsStartsWith u "../" = false →
       getUrl fenv page pretty parentPath = .error (.badStart page (.str u))) ∧
    (∀ (fenv : Nat → PageM → JsValue) (page : PageM) (pretty : Bool)
       (parentPath : String) (v : JsValue),
       recGet "url" page.data = some v →
       (∀ s, v ≠ .str s) → (∀ tok, v ≠ .func tok) → v ≠ .bool false →
       getUrl fenv page pretty parentPath = .error (.badType page v)) := by
  refine ⟨?_, ?_, ?_⟩
  · intro fenv page pretty parentPath u h0 h1 h2 h3
    simp [getUrl, h0, h1, h2, h3]
  · intro fenv page pretty parentPath tok u h0 hf h1 h2 h3
    simp [getUrl, h0, hf, h1, h2, h3]
  · intro fenv page pretty parentPath v h0 hstr hfunc hfalse
    cases v with
    | null => simp [getUrl, h0]
    | bool b =>
        cases b with
        | false => exact absurd rfl hfalse
        | true => simp [getUrl, h0]
    | num n => simp [getUrl, h0]
    | str s => exact absurd rfl (hstr s)
    | date ms => simp [getUrl, h0]
    | arr xs => simp [getUrl, h0]
    | obj fs => simp [getUrl, h0]
    | func tok => exact absurd rfl (hfunc tok)
    | pageMark => simp [getUrl, h0]
    | proxyMark => simp [getUrl, h0]

/-- Witness for C9: the url string `"other"` on a page under `/blog` fails
with the badStart error carrying the page and the value, and a numeric url
fails with the badType error. -/
theorem getUrl_invalid_url_errors_witness :
    getUrl (fun _ _ => JsValue.null)
      { srcPath := "/blog/post", srcExt := ".md", srcSlug := "post",
        srcAsset := false, data := [("url", .str "other")] } true "/blog"
      = .error (.badStart
          { srcPath := "/blog/post", srcExt := ".md", srcSlug := "post",
            srcAsset := false, data := [("url", .str "other")] }
          (.str "other")) ∧
    getUrl (fun _ _ => JsValue.null)
      { srcPath := "/blog/post", srcExt := ".md", srcSlug := "post",
        srcAsset := false, data := [("url", .num 5)] } true "/blog"
      = .error (.badType
          { srcPath := "/blog/post", srcExt := ".md", srcSlug := "post",
            srcAsset := false, data := [("url", .num 5)] }
          (.num 5)) :=
  ⟨getUrl_invalid_url_errors.1 _ _ true "/blog" "other" (by decide) (by decide)
      (by decide) (by decide),
    getUrl_invalid_url_errors.2.2 _ _ true "/blog" (.num 5) (by decide)
      (by intro x hx; cases hx) (by intro x hx; cases hx) (by decide)⟩


/-- A clean path segment: non-empty, no separator, not a dot segment. -/
def segClean (seg : List Char) : Prop :=
  seg ≠ [] ∧ '/' ∉ seg ∧ seg ≠ ['.'] ∧ seg ≠ ['.', '.']

def renderAbsL (segs : List (List Char)) : List Char := '/' :: joinSegs segs

def renderAbs (segs : List (List Char)) : String := String.mk (renderAbsL segs)

theorem splitSeg_ne_nil : ∀ cs : List Char, splitSeg cs ≠ []
  | [] => by simp [splitSeg]
  | c :: rest => by
      by_cases hc : c = '/'
      · simp [splitSeg, hc]
      · simp only [splitSeg, if_neg hc]
        cases h : splitSeg rest with
        | nil => simp
        | cons s ss => simp

theorem splitSeg_append : ∀ x y : List Char,
    splitSeg (x ++ '/' :: y) = splitSeg x ++ splitSeg y
  | [], y => by simp [splitSeg]
  | c :: x, y => by
      by_cases hc : c = '/'
      · simp [splitSeg, hc, splitSeg_append x y]
      · have hrec := splitSeg_append x y
        cases h : splitSeg x with
        | nil => exact absurd h (splitSeg_ne_nil x)
        | cons s ss =>
            rw [h] at hrec
            show splitSeg (c :: (x ++ '/' :: y)) = splitSeg (c :: x) ++ splitSeg y
            simp only [splitSeg, if_neg hc]
            rw [hrec, h]
            simp

theorem splitSeg_no_slash : ∀ x : List Char, '/' ∉ x → splitSeg x = [x]
  | [], _ => by simp [splitSeg]
  | c :: x, h => by
      simp only [List.mem_cons, not_or] at h
      simp [splitSeg, Ne.symm h.1, splitSeg_no_slash x h.2]

theorem joinSegs_append_single : ∀ (segs : List (List Char)) (s : List Char),
    segs ≠ [] → joinSegs (segs ++ [s]) = joinSegs segs ++ '/' :: s
  | [], _, h => absurd rfl h
  | [t], s, _ => by simp [joinSegs]
  | t :: u :: rest, s, _ => by
      have ih := joinSegs_append_single (u :: rest) s (by simp)
      show joinSegs (t :: (u :: (rest ++ [s]))) = joinSegs (t :: u :: rest) ++ '/' :: s
      rw [show joinSegs (t :: (u :: (rest ++ [s])))
            = t ++ '/' :: joinSegs (u :: (rest ++ [s])) from rfl,
        show joinSegs (t :: u :: rest) = t ++ '/' :: joinSegs (u :: rest) from rfl]
      rw [List.cons_append] at ih
      rw [ih]
      simp

theorem splitSeg_joinSegs : ∀ segs : List (List Char),
    segs ≠ [] → (∀ seg ∈ segs, '/' ∉ seg) →
    splitSeg (joinSegs segs) = segs
  | [], h, _ => absurd rfl h
  | [s], _, hc => by
      simp only [joinSegs]
      exact splitSeg_no_slash s (hc s (by simp))
  | s :: t :: rest, _, hc => by
      simp only [joinSegs, splitSeg_append, splitSeg_no_slash s (hc s (by simp))]
      rw [splitSeg_joinSegs (t :: rest) (by simp) (fun seg hm => hc seg (by simp [hm]))]
      simp

theorem foldl_normSegsStep_clean (abs : Bool) :
    ∀ (segs : List (List Char)) (acc : List (List Char)),
    (∀ seg ∈ segs, segClean seg) →
    segs.foldl (normSegsStep abs) acc = acc ++ segs
  | [], acc, _ => by simp
  | s :: rest, acc, h => by
      have hs := h s (by simp)
      rw [List.foldl_cons, normSegsStep, if_neg hs.2.2.1, if_neg hs.2.2.2,
        foldl_normSegsStep_clean abs rest (acc ++ [s])
          (fun seg hm => h seg (by simp [hm]))]
      simp

theorem getLast?_mem_of_eq {α : Type} {l : List α} {a : α}
    (h : l.getLast? = some a) : a ∈ l := by
  induction l with
  | nil => simp at h
  | cons c rest ih =>
      cases hr : rest with
      | nil =>
          rw [hr] at h
          simp_all
      | cons d tail =>
          rw [hr] at h
          rw [List.getLast?_cons_cons] at h
          right
          exact hr ▸ ih (hr ▸ h)

theorem hasTrail_renderAbs_of_cons (segs : List (List Char)) (s : List Char)
    (hne : s ≠ []) (hns : '/' ∉ s) :
    hasTrailL (renderAbsL (segs ++ [s])) = false := by
  have hlast : (renderAbsL (segs ++ [s])).getLast? = s.getLast? := by
    unfold renderAbsL
    cases segs with
    | nil =>
        simp only [List.nil_append, joinSegs]
        rw [show ('/' :: s) = ['/'] ++ s by simp, List.getLast?_append]
        cases hs : s.getLast? with
        | none => simp [List.getLast?_eq_none_iff] at hs; exact absurd hs hne
        | some c => simp
    | cons t rest =>
        rw [joinSegs_append_single (t :: rest) s (by simp)]
        rw [show ('/' :: (joinSegs (t :: rest) ++ '/' :: s))
              = ('/' :: joinSegs (t :: rest) ++ ['/']) ++ s by simp,
          List.getLast?_append]
        cases hs : s.getLast? with
        | none => simp [List.getLast?_eq_none_iff] at hs; exact absurd hs hne
        | some c => simp
  unfold hasTrailL
  rw [hlast]
  cases hs : s.getLast? with
  | none => rfl
  | some c =>
      have hmem : c ∈ s := getLast?_mem_of_eq hs
      have hcne : c ≠ '/' := fun hh => hns (hh ▸ hmem)
      simp [hcne]

theorem pathNormalizeL_renderAbs (v : List Char) (vs : List (List Char))
    (h : ∀ seg ∈ v :: vs, segClean seg) :
    pathNormalizeL (renderAbsL (v :: vs)) = renderAbsL (v :: vs) := by
  have hdl : (v :: vs).dropLast ++ [(v :: vs).getLast (by simp)] = v :: vs :=
    List.dropLast_append_getLast (by simp)
  have hlastc := h ((v :: vs).getLast (by simp)) (List.getLast_mem (by simp))
  have htrail : hasTrailL (renderAbsL (v :: vs)) = false := by
    rw [← hdl]
    exact hasTrail_renderAbs_of_cons _ _ hlastc.1 hlastc.2.1
  have hsplit : splitSeg (joinSegs (v :: vs)) = v :: vs :=
    splitSeg_joinSegs (v :: vs) (by simp) (fun seg hm => (h seg hm).2.1)
  have hfilter : (v :: vs).filter (· ≠ []) = v :: vs := by
    rw [List.filter_eq_self]
    intro a ha
    simpa using (h a ha).1
  have hfold := foldl_normSegsStep_clean true (v :: vs) [] h
  show pathNormalizeL ('/' :: joinSegs (v :: vs)) = _
  rw [pathNormalizeL]
  simp only [show isAbsL ('/' :: joinSegs (v :: vs)) = true from rfl,
    show splitSeg ('/' :: joinSegs (v :: vs)) = [] :: splitSeg (joinSegs (v :: vs))
      from by rw [splitSeg]; simp,
    hsplit]
  rw [show hasTrailL ('/' :: joinSegs (v :: vs)) = false from htrail]
  simp only [List.filter_cons, hfilter]
  simp [hfold, renderAbsL]
  simp

theorem takeWhile_append_cons {p : Char → Bool} :
    ∀ (a : List Char) (c : Char) (d : List Char),
    (∀ x ∈ a, p x = true) → p c = false →
    (a ++ c :: d).takeWhile p = a
  | [], c, d, _, hc => by simp [List.takeWhile_cons, hc]
  | x :: a, c, d, ha, hc => by
      have hx := ha x (by simp)
      simp only [List.cons_append, List.takeWhile_cons, hx]
      simp [takeWhile_append_cons a c d (fun y hy => ha y (by simp [hy])) hc]

theorem dropWhile_append_cons {p : Char → Bool} :
    ∀ (a : List Char) (c : Char) (d : List Char),
    (∀ x ∈ a, p x = true) → p c = false →
    (a ++ c :: d).dropWhile p = c :: d
  | [], c, d, _, hc => by simp [List.dropWhile_cons, hc]
  | x :: a, c, d, ha, hc => by
      have hx := ha x (by simp)
      simp only [List.cons_append, List.dropWhile_cons, hx]
      simp [dropWhile_append_cons a c d (fun y hy => ha y (by simp [hy])) hc]

theorem reverse_head_of_clean (s : List Char) (hne : s ≠ []) (hns : '/' ∉ s) :
    ∃ c t, s.reverse = c :: t ∧ c ≠ '/' := by
  cases hr : s.reverse with
  | nil => exact absurd (by simpa using congrArg List.reverse hr) hne
  | cons c t =>
      refine ⟨c, t, rfl, fun hh => hns ?_⟩
      subst hh
      have : '/' ∈ s.reverse := by rw [hr]; simp
      simpa using this

theorem joinSegs_reverse_head (v : List Char) (vs : List (List Char))
    (h : ∀ seg ∈ v :: vs, segClean seg) :
    ∃ c t, (joinSegs (v :: vs)).reverse = c :: t ∧ c ≠ '/' := by
  have hdl : (v :: vs).dropLast ++ [(v :: vs).getLast (by simp)] = v :: vs :=
    List.dropLast_append_getLast (by simp)
  have hlastc := h ((v :: vs).getLast (by simp)) (List.getLast_mem (by simp))
  obtain ⟨c, t, hct, hc⟩ :=
    reverse_head_of_clean ((v :: vs).getLast (by simp)) hlastc.1 hlastc.2.1
  cases hd : (v :: vs).dropLast with
  | nil =>
      rw [hd] at hdl
      simp only [List.nil_append] at hdl
      rw [← hdl]
      exact ⟨c, t, by simpa [joinSegs] using hct, hc⟩
  | cons w ws =>
      rw [← hdl, hd, joinSegs_append_single (w :: ws) _ (by simp)]
      refine ⟨c, t ++ '/' :: (joinSegs (w :: ws)).reverse, ?_, hc⟩
      rw [List.reverse_append]
      simp [hct]

/-- The characters preceding the final separator of
`renderAbsL (segs ++ [slug])`, in reverse. -/
def revTailOf (segs : List (List Char)) : List Char :=
  match segs with
  | [] => []
  | v :: vs => (joinSegs (v :: vs)).reverse ++ ['/']

theorem renderAbs_app_reverse (segs : List (List Char)) (slug : List Char) :
    (renderAbsL (segs ++ [slug])).reverse = slug.reverse ++ '/' :: revTailOf segs := by
  cases segs with
  | nil => simp [renderAbsL, joinSegs, revTailOf]
  | cons v vs =>
      unfold renderAbsL revTailOf
      rw [joinSegs_append_single (v :: vs) slug (by simp)]
      simp

theorem notSlash_of_mem_clean {slug : List Char} (hslug : segClean slug) :
    ∀ x ∈ slug.reverse, notSlash x = true := by
  intro x hx
  simp only [notSlash, decide_eq_true_eq]
  intro hh
  exact hslug.2.1 (List.mem_reverse.mp (hh ▸ hx))

theorem dropTrailSlashes_renderAbs_app (segs : List (List Char)) (slug : List Char)
    (hslug : segClean slug) :
    dropTrailSlashes (renderAbsL (segs ++ [slug])) = renderAbsL (segs ++ [slug]) := by
  obtain ⟨c, t, hct, hc⟩ := reverse_head_of_clean slug hslug.1 hslug.2.1
  have hc2 : isSlash c = false := by simp [isSlash, hc]
  unfold dropTrailSlashes
  rw [renderAbs_app_reverse, hct]
  simp only [List.cons_append, List.dropWhile_cons, hc2, Bool.false_eq_true,
    if_neg, if_false]
  calc (c :: (t ++ '/' :: revTailOf segs)).reverse
      = ((c :: t) ++ '/' :: revTailOf segs).reverse := rfl
    _ = ((renderAbsL (segs ++ [slug])).reverse).reverse := by
          rw [hct.symm, renderAbs_app_reverse]
    _ = renderAbsL (segs ++ [slug]) := List.reverse_reverse _

theorem pbasename_renderAbs_app (segs : List (List Char)) (slug : List Char)
    (hslug : segClean slug) :
    pbasenameL (renderAbsL (segs ++ [slug])) = slug := by
  unfold pbasenameL
  rw [dropTrailSlashes_renderAbs_app segs slug hslug, renderAbs_app_reverse,
    takeWhile_append_cons slug.reverse '/' _ (notSlash_of_mem_clean hslug)
      (by decide), List.reverse_reverse]

theorem pdirname_renderAbs_app (segs : List (List Char)) (slug : List Char)
    (hsegs : ∀ seg ∈ segs, segClean seg) (hslug : segClean slug) :
    pdirnameL (renderAbsL (segs ++ [slug])) = renderAbsL segs := by
  have hdw : ('/' :: joinSegs (segs ++ [slug])).reverse.dropWhile notSlash
      = '/' :: revTailOf segs := by
    rw [show ('/' :: joinSegs (segs ++ [slug])) = renderAbsL (segs ++ [slug]) from rfl,
      renderAbs_app_reverse]
    exact dropWhile_append_cons slug.reverse '/' _ (notSlash_of_mem_clean hslug)
      (by decide)
  have hexp : dropTrailSlashes (renderAbsL (segs ++ [slug]))
      = '/' :: joinSegs (segs ++ [slug]) :=
    (dropTrailSlashes_renderAbs_app segs slug hslug).trans rfl
  unfold pdirnameL
  rw [hexp]
  simp only [hdw]
  cases segs with
  | nil => decide
  | cons v vs =>
      obtain ⟨c2, t2, hct2, hc2⟩ := joinSegs_reverse_head v vs hsegs
      have hcs : isSlash c2 = false := by simp [isSlash, hc2]
      rw [show revTailOf (v :: vs) = (joinSegs (v :: vs)).reverse ++ ['/'] from rfl,
        hct2]
      have hscr : dropTrailSlashes (('/' :: ((c2 :: t2) ++ ['/'])).reverse)
          = '/' :: (c2 :: t2).reverse := by
        unfold dropTrailSlashes
        simp [List.dropWhile_cons, isSlash, hc2]
      rw [hscr]
      rw [show (c2 :: t2).reverse = joinSegs (v :: vs) from by
        rw [← hct2, List.reverse_reverse]]
      rfl

theorem pathNormalizeL_dslash_slug (slug : List Char) (hslug : segClean slug) :
    pathNormalizeL ('/' :: '/' :: slug) = '/' :: slug := by
  obtain ⟨c, t, hct, hc⟩ := reverse_head_of_clean slug hslug.1 hslug.2.1
  have hsplit : splitSeg ('/' :: '/' :: slug) = [[], [], slug] := by
    simp [splitSeg, splitSeg_no_slash slug hslug.2.1]
  have htrail : hasTrailL ('/' :: '/' :: slug) = false := by
    unfold hasTrailL
    rw [show ('/' :: '/' :: slug) = ['/', '/'] ++ slug from rfl,
      List.getLast?_append,
      show slug.getLast? = some c from by
        rw [← List.head?_reverse, hct]; rfl]
    simpa using hc
  have hfold := foldl_normSegsStep_clean true [slug] []
    (fun seg hm => by
      have he := List.mem_singleton.mp hm
      rw [he]; exact hslug)
  rw [pathNormalizeL]
  rw [hsplit]
  rw [show hasTrailL ('/' :: '/' :: slug) = false from htrail]
  simp only [show isAbsL ('/' :: '/' :: slug) = true from rfl]
  simp only [List.filter_cons, List.filter_nil]
  simp [hfold, joinSegs, hslug.1]
  intro hh
  exact List.noConfusion hh

end Lume
namespace Lume

theorem pjoin_renderAbs_seg (segs : List (List Char)) (slug : List Char)
    (hsegs : ∀ seg ∈ segs, segClean seg) (hslug : segClean slug) :
    pjoin (renderAbs segs) (String.mk slug) = renderAbs (segs ++ [slug]) := by
  have hfil : [(renderAbs segs).data, (String.mk slug).data].filter (· ≠ [])
      = [renderAbsL segs, slug] := by
    simp only [renderAbs, renderAbsL]
    simp [hslug.1]
  rw [pjoin, hfil]
  have hjoined : joinSegs [renderAbsL segs, slug] = renderAbsL segs ++ '/' :: slug := rfl
  cases segs with
  | nil =>
      simp only [hjoined]
      rw [show renderAbsL [] ++ '/' :: slug = '/' :: '/' :: slug from rfl,
        pathNormalizeL_dslash_slug slug hslug]
      rfl
  | cons v vs =>
      simp only [hjoined]
      rw [show renderAbsL (v :: vs) ++ '/' :: slug
            = '/' :: (joinSegs (v :: vs) ++ '/' :: slug) from rfl,
        ← joinSegs_append_single (v :: vs) slug (by simp),
        show ('/' :: joinSegs ((v :: vs) ++ [slug]))
            = renderAbsL (v :: (vs ++ [slug])) from rfl,
        pathNormalizeL_renderAbs v (vs ++ [slug]) (by
          intro seg hm
          rcases List.mem_cons.mp hm with hv | hm2
          · rw [hv]; exact hsegs v (by simp)
          · rcases List.mem_append.mp hm2 with hm3 | hm4
            · exact hsegs seg (by simp [hm3])
            · rw [List.mem_singleton.mp hm4]; exact hslug)]
      rfl

theorem pjoin_renderAbs_slash (segs : List (List Char))
    (hsegs : ∀ seg ∈ segs, segClean seg) :
    pjoin (renderAbs segs) "/"
      = if segs = [] then "/" else String.mk (renderAbsL segs ++ ['/']) := by
  cases segs with
  | nil => decide
  | cons v vs =>
      have hfil : [(renderAbs (v :: vs)).data, ("/" : String).data].filter (· ≠ [])
          = [renderAbsL (v :: vs), ['/']] := by
        simp [renderAbs, renderAbsL]
      rw [pjoin, hfil]
      show String.mk (pathNormalizeL (joinSegs [renderAbsL (v :: vs), ['/']]))
          = if (v :: vs : List (List Char)) = [] then ("/" : String)
            else String.mk (renderAbsL (v :: vs) ++ ['/'])
      have hjoined : joinSegs [renderAbsL (v :: vs), ['/']]
          = '/' :: (joinSegs (v :: vs) ++ ['/', '/']) := by
        show renderAbsL (v :: vs) ++ '/' :: ['/'] = _
        simp [renderAbsL]
      have hsplit : splitSeg ('/' :: (joinSegs (v :: vs) ++ ['/', '/']))
          = [] :: ((v :: vs) ++ [[], []]) := by
        rw [show splitSeg ('/' :: (joinSegs (v :: vs) ++ ['/', '/']))
              = [] :: splitSeg (joinSegs (v :: vs) ++ ['/', '/']) from by
            simp [splitSeg],
          show (joinSegs (v :: vs) ++ ['/', '/'])
              = joinSegs (v :: vs) ++ '/' :: ['/'] from rfl,
          splitSeg_append,
          splitSeg_joinSegs (v :: vs) (by simp) (fun seg hm => (hsegs seg hm).2.1)]
        rfl
      have htrail : hasTrailL ('/' :: (joinSegs (v :: vs) ++ ['/', '/'])) = true := by
        unfold hasTrailL
        rw [show ('/' :: (joinSegs (v :: vs) ++ ['/', '/']))
              = ('/' :: joinSegs (v :: vs) ++ ['/']) ++ ['/'] from by simp,
          List.getLast?_append]
        rfl
      have hfold := foldl_normSegsStep_clean true (v :: vs) [] hsegs
      rw [hjoined, pathNormalizeL]
      rw [hsplit, htrail]
      simp only [show isAbsL ('/' :: (joinSegs (v :: vs) ++ ['/', '/'])) = true from rfl]
      have hfilter2 : (([] : List Char) :: ((v :: vs) ++ [[], []])).filter (· ≠ [])
          = v :: vs := by
        have hv : v ≠ [] := (hsegs v (by simp)).1
        have hself : List.filter (fun x => !decide (x = ([] : List Char))) vs = vs := by
          rw [List.filter_eq_self]
          intro a ha
          simpa using (hsegs a (by simp [ha])).1
        simp only [List.filter_cons, List.filter_append]
        simp [hv, hself]
      rw [hfilter2]
      simp [hfold, renderAbsL]
      intro hh
      exact List.noConfusion hh

/-- C8: for a page with no declared url, no extra extension and not an asset,
the resolved URL is the parent path joined with the page slug under the
pretty-URL policy: with pretty URLs on, the slug `index` resolves to the
parent directory with a trailing slash and any other slug gets a trailing
slash appended; with pretty URLs off, `.html` is appended. -/
theorem getUrl_default_pretty_policy (fenv : Nat → PageM → JsValue)
    (page : PageM) (segs : List (List Char)) (slug : List Char)
    (hurl : recGet "url" page.data = none)
    (hext : getExtension page.srcPath = "")
    (hasset : page.srcAsset = false)
    (hslugEq : page.srcSlug = String.mk slug)
    (hsegs : ∀ seg ∈ segs, segClean seg)
    (hslug : segClean slug) :
    getUrl fenv page true (renderAbs segs)
      = .ok (some (if slug = ("index" : String).data
          then (if segs = [] then "/" else String.mk (renderAbsL segs ++ ['/']))
          else String.mk (renderAbsL (segs ++ [slug]) ++ ['/']))) ∧
    getUrl fenv page false (renderAbs segs)
      = .ok (some (String.mk (renderAbsL (segs ++ [slug])) ++ ".html")) := by
  have hu : pjoin (renderAbs segs) page.srcSlug = renderAbs (segs ++ [slug]) := by
    rw [hslugEq]; exact pjoin_renderAbs_seg segs slug hsegs hslug
  have hb : pbasename (renderAbs (segs ++ [slug])) = String.mk slug := by
    show String.mk (pbasenameL (renderAbsL (segs ++ [slug]))) = _
    rw [pbasename_renderAbs_app segs slug hslug]
  have hd : pdirname (renderAbs (segs ++ [slug])) = renderAbs segs := by
    show String.mk (pdirnameL (renderAbsL (segs ++ [slug]))) = _
    rw [pdirname_renderAbs_app segs slug hsegs hslug]
    rfl
  constructor
  · by_cases hif : slug = ("index" : String).data
    · rw [if_pos hif]
      have hbI : pbasename (renderAbs (segs ++ [slug])) = "index" := by
        rw [hb, hif]
      simp [getUrl, hurl, hext, hasset, hu, hbI, hd,
        pjoin_renderAbs_slash segs hsegs]
    · rw [if_neg hif]
      have hbne : String.mk slug ≠ "index" := by
        intro h; exact hif (congrArg String.data h)
      simp [getUrl, hurl, hext, hasset, hu, hb, hbne,
        pjoin_renderAbs_slash (segs ++ [slug])
          (by
            intro seg hm
            rcases List.mem_append.mp hm with hm1 | hm2
            · exact hsegs seg hm1
            · rw [List.mem_singleton.mp hm2]; exact hslug)]
  · show getUrl fenv page false (renderAbs segs)
        = .ok (some (renderAbs (segs ++ [slug]) ++ ".html"))
    simp [getUrl, hurl, hext, hasset, hu]

/-- Witness for C8: a page with slug `post` under `/blog` resolves to
`/blog/post/` with pretty URLs on and `/blog/post.html` with them off. -/
theorem getUrl_default_pretty_policy_witness :
    getUrl (fun _ _ => JsValue.null)
      { srcPath := "/blog/post", srcExt := ".md", srcSlug := "post",
        srcAsset := false, data := [] } true "/blog"
      = .ok (some "/blog/post/") ∧
    getUrl (fun _ _ => JsValue.null)
      { srcPath := "/blog/post", srcExt := ".md", srcSlug := "post",
        srcAsset := false, data := [] } false "/blog"
      = .ok (some "/blog/post.html") := by
  have h := getUrl_default_pretty_policy (fun _ _ => JsValue.null)
    { srcPath := "/blog/post", srcExt := ".md", srcSlug := "post",
      srcAsset := false, data := [] }
    [['b', 'l', 'o', 'g']] ['p', 'o', 's', 't']
    (by decide) (by decide) (by decide) (by decide)
    (by
      intro seg hm
      rw [List.mem_singleton.mp hm]
      exact ⟨by decide, by decide, by decide, by decide⟩)
    ⟨by decide, by decide, by decide, by decide⟩
  rw [show ("/blog" : String) = renderAbs [['b', 'l', 'o', 'g']] from by decide]
  exact ⟨h.1.trans (by decide), h.2.trans (by decide)⟩

/-! ## The source tree walk (`Source#build`, source.ts lines 39-435)

The walk's collaborators (data loader, component loader, formats registry,
url functions, build filters) are opaque functions supplied through a
configuration record, as they are injected objects in the source. -/

/-- A source filesystem entry: a file or a directory with its ordered
children.  Loadable file contents are resolved through the configuration,
keyed by the entry path. -/
inductive EntryT where
  | file (name : String)
  | dir (name : String) (children : List EntryT)

def entryName : EntryT → String
  | .file n => n
  | .dir n _ => n

/-- `entry.path` as the fs tree produces it: the parent path joined with the
entry name. -/
def childPath (parent name : String) : String :=
  if parent = "/" then "/" ++ name else parent ++ "/" ++ name

/-- A static destination: a fixed string or an opaque `(path) => string`
function (a token resolved through the configuration). -/
inductive Dest where
  | str (s : String)
  | fn (tok : Nat)
deriving Repr, DecidableEq

/-- An output static file: the source entry path and the computed output
path. -/
structure SFile where
  srcPath : String
  outputPath : String
deriving Repr, DecidableEq

/-- The exceptions the walk can raise: a url error from `getUrl`, the
missing-loader throw (source.ts 320-324), and the `TypeError` that
`posix.join` raises on a non-string, non-nullish `slug` value. -/
inductive BuildErr where
  | urlError (e : UrlErr)
  | missingLoader (path : String)
  | slugType (path : String) (v : JsValue)
deriving Repr, DecidableEq

/-- One entry of the formats registry, as `formats.search` returns it:
`copy` is falsy (`none`), `true` (`some none`) or a function
(`some (some tok)`); `pageType` is absent, `"page"` (`some false`) or
`"asset"` (`some true`); `hasLoader` says whether the loader selected for
the page type (`assetLoader` for assets, `loader` otherwise) is defined. -/
structure FormatM where
  ext : String
  copy : Option (Option Nat)
  pageType : Option Bool
  hasLoader : Bool
deriving Repr, DecidableEq

/-- The walk configuration: the `Source` fields and injected collaborators.
Functions of the source (url functions, static destinations, filters,
loaders) are opaque functions here; loader results are keyed by the entry
path.  `copyRemainingFiles` returns falsy (`none`), `true` (`some none`) or
a destination string (`some (some s)`). -/
structure BuildCfg where
  prettyUrls : Bool
  compVar : String
  now : Int
  fenv : Nat → PageM → JsValue
  destFenv : Nat → String → String
  scopedData : String → Rec
  scopedPages : String → List Rec
  scopedComponents : String → Option Components
  staticPaths : List (String × (Option Dest × Bool))
  ignored : List String
  filters : String → Bool
  copyRemainingFiles : Option (String → Option (Option String))
  formatOf : String → Option FormatM
  dataOf : String → Rec
  loadComp : String → Rec → Components
  contentOf : String → Rec
  pageDate : PageM → JsValue
  entryRejects : String → EntryT → Bool
  pageRejects : String → PageM → Bool

/-- JS `Map.get` on an insertion-ordered association list. -/
def lookupStr {α : Type} (key : String) : List (String × α) → Option α
  | [] => none
  | (k, v) :: rest => if k = key then some v else lookupStr key rest

/-- JS `Map.set`: updates the value in place when the key exists, otherwise
appends. -/
def setStr {α : Type} (key : String) (v : α) : List (String × α) → List (String × α)
  | [] => [(key, v)]
  | (k, w) :: rest => if k = key then (k, v) :: rest else (k, w) :: setStr key v rest

/-- Modelled from the spec: `normalizePath` lives in `core/utils/path.ts`,
which is not part of the sources; per the spec it "canonicalizes
separators/trailing slashes" so that equal logical paths always compare
equal as map keys: backslashes become slashes, a leading slash is ensured
and trailing slashes are dropped (the root stays `/`). -/
def normalizePath (p : String) : String :=
  let q := p.data.map fun c => if c = '\\' then '/' else c
  let q1 := match q with
    | '/' :: _ => q
    | _ => '/' :: q
  match (q1.reverse.dropWhile isSlash).reverse with
  | [] => "/"
  | r => String.mk r

/-- JS `s.replace(/\x2f$/, "")`: strips one trailing slash. -/
def jsStripOneTrailingSlash (s : String) : String :=
  match s.data.reverse with
  | '/' :: rest => String.mk rest.reverse
  | _ => s

def jsEndsWithSlash (s : String) : Bool :=
  match s.data.reverse with
  | '/' :: _ => true
  | _ => false

/-- String destinations are normalized when stored (`addStaticPath`,
source.ts 120). -/
def normDest : Option Dest → Option Dest
  | some (.str s) => some (.str (normalizePath s))
  | d => d

/-- `addStaticPath(from, to?)` (source.ts 116-124): keys the map by the
normalized source with one trailing slash stripped; a trailing slash on the
argument marks the mapping directory-only. -/
def addStaticPath (sp : List (String × (Option Dest × Bool)))
    (from0 : String) (to0 : Option Dest) : List (String × (Option Dest × Bool)) :=
  setStr (normalizePath (jsStripOneTrailingSlash from0))
    (normDest to0, jsEndsWithSlash from0) sp

/-- `getOutputPath(entry, path, dest?)` (source.ts 1206-1220). -/
def getOutputPath (cfg : BuildCfg) (entryName0 path : String)
    (dest : Option Dest) : String :=
  match dest with
  | some (.fn tok) => cfg.destFenv tok (pjoin path entryName0)
  | some (.str s) => s
  | none => pjoin path entryName0

/-- JS `s.slice(0, -n)`: drop the last `n` characters (`-0` is `0`, so the
whole string is dropped when `n` is zero). -/
def jsDropEnd (s : String) (n : Nat) : String :=
  if n = 0 then "" else String.mk (s.data.take (s.data.length - n))

/-- The destination path and destination function a directory static
mapping hands to the scan (source.ts 256-260). -/
def staticDestPath (dest : Option Dest) (path n : String) : String :=
  match dest with
  | some (.str s) => s
  | _ => pjoin path n

def staticDestFn (dest : Option Dest) : Option Nat :=
  match dest with
  | some (.fn tok) => some tok
  | _ => none

/-- `Source#getStaticFiles` (source.ts 402-434): scan a directory for static
files, skipping `.`/`_`-prefixed, ignored and filtered files; directories
recurse with the destination extended by the directory name. -/
def getStaticFilesM (cfg : BuildCfg) (children : List EntryT)
    (srcParent destPath : String) (destFn : Option Nat) : List SFile :=
  match children with
  | [] => []
  | .file n :: rest =>
      (if jsStartsWith n "." || jsStartsWith n "_" then []
       else if childPath srcParent n ∈ cfg.ignored then []
       else if cfg.filters (childPath srcParent n) then []
       else [{ srcPath := childPath srcParent n,
               outputPath := getOutputPath cfg n destPath (destFn.map Dest.fn) }])
      ++ getStaticFilesM cfg rest srcParent destPath destFn
  | .dir n cs :: rest =>
      getStaticFilesM cfg cs (childPath srcParent n) (pjoin destPath n) destFn
      ++ getStaticFilesM cfg rest srcParent destPath destFn
termination_by sizeOf children
decreasing_by all_goals (simp_wf <;> omega)

/-- `dirData.slug ?? name` followed by `posix.join`: nullish-coalescing
falls back to the parsed name on `null`/`undefined`; a non-string,
non-nullish value would make `posix.join` throw a `TypeError`. -/
def slugOf : Option JsValue → String → Except JsValue String
  | none, nm => .ok nm
  | some .null, nm => .ok nm
  | some (.str s), _ => .ok s
  | some v, _ => .error v

/-- The first child directory named `_components` (source.ts 190-195). -/
def firstCompDir : List EntryT → Option String
  | [] => none
  | .dir n _ :: rest => if n = "_components" then some n else firstCompDir rest
  | .file _ :: rest => firstCompDir rest

/-- The page-finalisation steps shared by scoped pages and file pages
(source.ts 224-231 and 347-353): resolve the url, drop the page when the
url is falsy (`false` or the empty string), then set `url`, `date` (via the
injected `getPageDate`) and the `page` back-reference. -/
def finalizePage (cfg : BuildCfg) (page : PageM) (path : String) :
    Except BuildErr (Option PageM) :=
  match getUrl cfg.fenv page cfg.prettyUrls path with
  | .error e => .error (.urlError e)
  | .ok none => .ok none
  | .ok (some u) =>
      if u = "" then .ok none
      else
        let d1 := recSet "url" (.str u) page.data
        let d2 := recSet "date" (cfg.pageDate { page with data := d1 }) d1
        .ok (some { page with data := recSet "page" .pageMark d2 })

/-- The scoped-pages loop (source.ts 215-233): one page per declared data
record, merged over the directory data plus the current instant. -/
def scopedPagesLoop (cfg : BuildCfg) (datas : List Rec) (dirData : Rec)
    (path : String) : Except BuildErr (List PageM) :=
  match datas with
  | [] => .ok []
  | d :: rest =>
      let page : PageM := { srcPath := "", srcExt := "", srcSlug := "",
                            srcAsset := false,
                            data := mergeData [dirData, [("date", .date cfg.now)], d] }
      match finalizePage cfg page path with
      | .error e => .error e
      | .ok none => scopedPagesLoop cfg rest dirData path
      | .ok (some p) =>
          match scopedPagesLoop cfg rest dirData path with
          | .error e => .error e
          | .ok ps => .ok (p :: ps)

/-- The directory-preparation steps of `#build` (source.ts 159-212): parse
the folder-name date, assign the `_data` entries over it, merge the
directory data, consume the slug into the output path (deleting it), and
merge the components (the stored proxy value is abstracted as the
`proxyMark` token).  Returns the resolved output path, the record passed to
pages and sub-directories, and the merged components. -/
def dirContext (cfg : BuildCfg) (dname : String) (children : List EntryT)
    (srcPath path : String) (parentComponents : Components)
    (parentData : Rec) : Except JsValue (String × Rec × Components) :=
  let nd := parseDate dname
  let dateRec : Rec := match nd.2 with
    | some t => [("date", .date t)]
    | none => []
  let currentData := children.foldl (fun acc e =>
    match e with
    | .file n => if jsStartsWith n "_data."
        then recSpread acc (cfg.dataOf (childPath srcPath n)) else acc
    | .dir n _ => if n = "_data"
        then recSpread acc (cfg.dataOf (childPath srcPath n)) else acc) dateRec
  let dirData0 := mergeData [parentData, dateRec, cfg.scopedData srcPath, currentData]
  match slugOf (recGet "slug" dirData0) nd.1 with
  | .error v => .error v
  | .ok seg =>
      let path1 := pjoin path seg
      let dirData1 := recDel "slug" dirData0
      let scomps := cfg.scopedComponents srcPath
      let lcomps := match firstCompDir children with
        | some n => some (cfg.loadComp (childPath srcPath n) dirData1)
        | none => none
      if scomps.isSome || lcomps.isSome then
        .ok (path1, recSet cfg.compVar .proxyMark dirData1,
             mergeComponentsV parentComponents (scomps.getD []) (lcomps.getD []))
      else .ok (path1, dirData1, parentComponents)

/-- The walk's accumulated outputs: the pages and static files returned by
`build`, and the per-path data records stored in `this.data`. -/
structure BOut where
  pages : List PageM
  statics : List SFile
  dataLog : List (String × Rec)
deriving Repr, DecidableEq

def BOut.empty : BOut := { pages := [], statics := [], dataLog := [] }

def BOut.app (a b : BOut) : BOut :=
  { pages := a.pages ++ b.pages, statics := a.statics ++ b.statics,
    dataLog := a.dataLog ++ b.dataLog }

/-- The file-format dispatch of the child loop (source.ts 278-363):
remaining-file copy, static copy by format, missing-loader throw and page
construction (`epath` is the entry path, `n` the entry name). -/
def fileFormatOut (cfg : BuildCfg) (epath n path : String) (dirData : Rec) :
    Except BuildErr BOut :=
  match cfg.formatOf epath with
  | none =>
      match cfg.copyRemainingFiles with
      | none => .ok BOut.empty
      | some f =>
          match f epath with
          | none => .ok BOut.empty
          | some d =>
              .ok { BOut.empty with statics :=
                [{ srcPath := epath,
                   outputPath := getOutputPath cfg n path (d.map Dest.str) }] }
  | some fmt =>
      match fmt.copy with
      | some c =>
          .ok { BOut.empty with statics :=
            [{ srcPath := epath,
               outputPath := getOutputPath cfg n path (c.map Dest.fn) }] }
      | none =>
          match fmt.pageType with
          | none => .ok BOut.empty
          | some isAsset =>
              if !fmt.hasLoader then .error (.missingLoader epath)
              else
                let sd := parseDate n
                let dateRec : Rec := match sd.2 with
                  | some t => [("date", .date t)]
                  | none => []
                let page : PageM :=
                  { srcPath := jsDropEnd epath fmt.ext.data.length,
                    srcExt := fmt.ext,
                    srcSlug := jsDropEnd sd.1 fmt.ext.data.length,
                    srcAsset := isAsset,
                    data := mergeData [dirData, dateRec,
                      cfg.scopedData epath, cfg.contentOf epath] }
                match finalizePage cfg page path with
                | .error err => .error err
                | .ok none => .ok BOut.empty
                | .ok (some p) =>
                    if cfg.pageRejects epath p then .ok BOut.empty
                    else .ok { BOut.empty with pages := [p] }

mutual

/-- `Source#build` (source.ts 146-380) on one directory entry. -/
def buildDir (cfg : BuildCfg) (dir : EntryT) (srcPath path : String)
    (parentComponents : Components) (parentData : Rec) :
    Except BuildErr BOut :=
  match dir with
  | .file _ => .ok BOut.empty
  | .dir dname children =>
      if cfg.entryRejects srcPath (.dir dname children) then .ok BOut.empty
      else
        match dirContext cfg dname children srcPath path parentComponents parentData with
        | .error v => .error (.slugType srcPath v)
        | .ok (path1, dirData, comps) =>
            match scopedPagesLoop cfg (cfg.scopedPages srcPath) dirData path1 with
            | .error e => .error e
            | .ok sps =>
                match buildChildren cfg children srcPath path1 comps dirData with
                | .error e => .error e
                | .ok rest =>
                    .ok { pages := sps ++ rest.pages,
                          statics := rest.statics,
                          dataLog := (path1, dirData) :: rest.dataLog }
termination_by 3 * sizeOf dir
decreasing_by all_goals (simp_wf <;> omega)

/-- The child loop of `#build` (source.ts 236-377). -/
def buildChildren (cfg : BuildCfg) (entries : List EntryT)
    (srcPath path : String) (comps : Components) (dirData : Rec) :
    Except BuildErr BOut :=
  match entries with
  | [] => .ok BOut.empty
  | e :: rest =>
      match processEntry cfg e srcPath path comps dirData with
      | .error err => .error err
      | .ok o1 =>
          match buildChildren cfg rest srcPath path comps dirData with
          | .error err => .error err
          | .ok o2 => .ok (o1.app o2)
termination_by 3 * sizeOf entries + 2
decreasing_by all_goals (simp_wf <;> omega)

/-- One iteration of the child loop: build filters, static mappings,
`.`/`_` and ignore skips, the format dispatch (copy, page, remaining-file
copy) and the directory recursion. -/
def processEntry (cfg : BuildCfg) (e : EntryT) (srcPath path : String)
    (comps : Components) (dirData : Rec) : Except BuildErr BOut :=
  if cfg.entryRejects (childPath srcPath (entryName e)) e then .ok BOut.empty
  else
    match lookupStr (childPath srcPath (entryName e)) cfg.staticPaths with
    | some (dest, dirOnly) =>
        match e with
        | .file n =>
            if dirOnly then .ok BOut.empty
            else .ok { BOut.empty with statics :=
              [{ srcPath := childPath srcPath n,
                 outputPath := getOutputPath cfg n path dest }] }
        | .dir n cs =>
            .ok { BOut.empty with statics :=
              (getStaticFilesM cfg cs (childPath srcPath n)
                (staticDestPath dest path n) (staticDestFn dest)) }
    | none =>
      if jsStartsWith (entryName e) "." || jsStartsWith (entryName e) "_" then
        .ok BOut.empty
      else if childPath srcPath (entryName e) ∈ cfg.ignored then .ok BOut.empty
      else if cfg.filters (childPath srcPath (entryName e)) then .ok BOut.empty
      else
        match e with
        | .file n => fileFormatOut cfg (childPath srcPath n) n path dirData
        | .dir n2 cs2 =>
            buildDir cfg (.dir n2 cs2) (childPath srcPath n2) path comps dirData
termination_by 3 * sizeOf e + 1
decreasing_by all_goals (simp_wf <;> omega)

end

/-- `Source.build` (source.ts 126-144): walk from the root entry. -/
def build (cfg : BuildCfg) (root : EntryT) : Except BuildErr BOut :=
  buildDir cfg root "/" "/" [] []

theorem nodup_mergeKeyStep (previous current data : Rec) (kv : String × JsValue)
    (h : (data.map Prod.fst).Nodup) :
    ((mergeKeyStep previous current data kv).map Prod.fst).Nodup := by
  obtain ⟨k, tv⟩ := kv
  cases tv with
  | str s =>
      by_cases h1 : s = "stringArray"
      · simpa [mergeKeyStep, h1] using nodup_recSet k _ data h
      · by_cases h2 : s = "array"
        · simpa [mergeKeyStep, h1, h2] using nodup_recSet k _ data h
        · by_cases h3 : s = "object"
          · simpa [mergeKeyStep, h1, h2, h3] using nodup_recSet k _ data h
          · simpa [mergeKeyStep, h1, h2, h3] using h
  | null => simpa [mergeKeyStep] using h
  | bool b => simpa [mergeKeyStep] using h
  | num n => simpa [mergeKeyStep] using h
  | date ms => simpa [mergeKeyStep] using h
  | arr xs => simpa [mergeKeyStep] using h
  | obj fs => simpa [mergeKeyStep] using h
  | func t => simpa [mergeKeyStep] using h
  | pageMark => simpa [mergeKeyStep] using h
  | proxyMark => simpa [mergeKeyStep] using h

theorem nodup_foldl_mergeKeyStep (previous current : Rec)
    (table : List (String × JsValue)) (data : Rec)
    (h : (data.map Prod.fst).Nodup) :
    (((table.foldl (mergeKeyStep previous current) data)).map Prod.fst).Nodup := by
  induction table generalizing data with
  | nil => simpa using h
  | cons kv rest ih =>
      rw [List.foldl_cons]
      exact ih _ (nodup_mergeKeyStep previous current data kv h)

theorem nodup_mergeTwoData (previous current : Rec)
    (h : (previous.map Prod.fst).Nodup) :
    ((mergeTwoData previous current).map Prod.fst).Nodup := by
  rw [mergeTwoData]
  exact nodup_foldl_mergeKeyStep previous current _ _
    (nodup_recSpread previous current h)

theorem nodup_mergeData (first : Rec) (rest : List Rec)
    (h : (first.map Prod.fst).Nodup) :
    ((mergeData (first :: rest)).map Prod.fst).Nodup := by
  rw [mergeData]
  induction rest generalizing first with
  | nil => simpa using h
  | cons c cs ih =>
      rw [List.foldl_cons]
      exact ih _ (nodup_mergeTwoData first c h)

/-- C6: the record a directory hands to its child pages and sub-directories
carries no `slug` key: the slug is deleted right after forming the
output-path segment, and the only later write is the components key, which
is a different key whenever the configured components variable is not
`"slug"`.  Holds even when `slug` came from the self-declared `_data`
metadata, since the deletion acts on the fully merged record. -/
theorem dirContext_slug_absent (cfg : BuildCfg) (dname : String)
    (children : List EntryT) (srcPath path : String) (pc : Components)
    (parentData : Rec) (path1 : String) (dirData : Rec) (comps : Components)
    (hvar : cfg.compVar ≠ "slug")
    (hnodup : (parentData.map Prod.fst).Nodup)
    (h : dirContext cfg dname children srcPath path pc parentData
          = .ok (path1, dirData, comps)) :
    recGet "slug" dirData = none := by
  simp only [dirContext] at h
  split at h
  · cases h
  · split at h
    · simp only [Except.ok.injEq, Prod.mk.injEq] at h
      obtain ⟨hp, hd, hc⟩ := h
      rw [← hd, recGet_recSet_ne _ _ _ _ (Ne.symm hvar)]
      exact recGet_recDel_self "slug" _ (nodup_mergeData parentData _ hnodup)
    · simp only [Except.ok.injEq, Prod.mk.injEq] at h
      obtain ⟨hp, hd, hc⟩ := h
      rw [← hd]
      exact recGet_recDel_self "slug" _ (nodup_mergeData parentData _ hnodup)

/-- A concrete configuration exercising the walk: one markdown format, a
`_data` loader declaring a slug, and trivial collaborators. -/
def cfgW : BuildCfg :=
  { prettyUrls := true, compVar := "comp", now := 0,
    fenv := fun _ _ => .null, destFenv := fun _ p => p,
    scopedData := fun _ => [], scopedPages := fun _ => [],
    scopedComponents := fun _ => none, staticPaths := [],
    ignored := [], filters := fun _ => false,
    copyRemainingFiles := none,
    formatOf := fun p => if p = "/a.md"
      then some { ext := ".md", copy := none, pageType := some false,
                  hasLoader := true }
      else none,
    dataOf := fun _ => [("slug", .str "myslug"), ("t", .num 1)],
    loadComp := fun _ _ => [], contentOf := fun _ => [],
    pageDate := fun _ => .date 0,
    entryRejects := fun _ _ => false, pageRejects := fun _ _ => false }

/-- Witness for C6: a directory named `blog` whose `_data` declares
`slug: "myslug"` resolves to path `/myslug` and passes down a record
without the `slug` key. -/
theorem dirContext_slug_absent_witness :
    recGet "slug" [("t", JsValue.num 1)] = none :=
  dirContext_slug_absent cfgW "blog" [.dir "_data" []] "/" "/" [] []
    "/myslug" [("t", .num 1)] [] (by decide) (by decide) (by decide)

theorem lookupStr_setStr_self {α : Type} (k : String) (v : α)
    (l : List (String × α)) : lookupStr k (setStr k v l) = some v := by
  induction l with
  | nil => simp [setStr, lookupStr]
  | cons kv rest ih =>
      obtain ⟨k0, w⟩ := kv
      by_cases hk : k0 = k
      · simp [setStr, hk, lookupStr]
      · simp [setStr, hk, lookupStr, ih]

/-- C4: a static mapping registered with a trailing slash is stored
directory-only under the normalized stripped source; during the walk a file
entry at that exact path is skipped entirely (no static output, no page),
while a directory entry at that path is expanded into static files by the
recursive scan. -/
theorem staticPath_dirOnly_behaviour :
    (∀ (sp : List (String × (Option Dest × Bool))) (from0 : String)
       (to0 : Option Dest), jsEndsWithSlash from0 = true →
       lookupStr (normalizePath (jsStripOneTrailingSlash from0))
         (addStaticPath sp from0 to0) = some (normDest to0, true)) ∧
    (∀ (cfg : BuildCfg) (n srcPath path : String) (comps : Components)
       (dirData : Rec) (dest : Option Dest),
       cfg.entryRejects (childPath srcPath n) (.file n) = false →
       lookupStr (childPath srcPath n) cfg.staticPaths = some (dest, true) →
       processEntry cfg (.file n) srcPath path comps dirData = .ok BOut.empty) ∧
    (∀ (cfg : BuildCfg) (n srcPath path : String) (cs : List EntryT)
       (comps : Components) (dirData : Rec) (dest : Option Dest)
       (dirOnly : Bool),
       cfg.entryRejects (childPath srcPath n) (.dir n cs) = false →
       lookupStr (childPath srcPath n) cfg.staticPaths = some (dest, dirOnly) →
       processEntry cfg (.dir n cs) srcPath path comps dirData
         = .ok { pages := [],
                 statics := getStaticFilesM cfg cs (childPath srcPath n)
                   (staticDestPath dest path n) (staticDestFn dest),
                 dataLog := [] }) := by
  refine ⟨?_, ?_, ?_⟩
  · intro sp from0 to0 hslash
    rw [addStaticPath, lookupStr_setStr_self, hslash]
  · intro cfg n srcPath path comps dirData dest hrej hlook
    simp [processEntry, entryName, hrej, hlook]
  · intro cfg n srcPath path cs comps dirData dest dirOnly hrej hlook
    simp [processEntry, entryName, hrej, hlook, BOut.empty]

/-- Witness for C4: `addStaticPath "assets/"` stores `/assets` as
directory-only; a file named `assets` under the root is skipped; a
directory named `assets` is expanded. -/
theorem staticPath_dirOnly_behaviour_witness :
    lookupStr (normalizePath (jsStripOneTrailingSlash "assets/"))
      (addStaticPath [] "assets/" none) = some (normDest none, true) ∧
    processEntry { cfgW with staticPaths := [("/assets", (none, true))] }
      (.file "assets") "/" "/" [] [] = .ok BOut.empty ∧
    processEntry { cfgW with staticPaths := [("/assets", (none, true))] }
      (.dir "assets" [.file "x.png"]) "/" "/" [] []
      = .ok { pages := [],
              statics := getStaticFilesM
                { cfgW with staticPaths := [("/assets", (none, true))] }
                [.file "x.png"] (childPath "/" "assets")
                (staticDestPath none "/" "assets") (staticDestFn none),
              dataLog := [] } :=
  ⟨staticPath_dirOnly_behaviour.1 [] "assets/" none (by decide),
   staticPath_dirOnly_behaviour.2.1 _ "assets" "/" "/" [] [] none
     (by decide) (by decide),
   staticPath_dirOnly_behaviour.2.2 _ "assets" "/" "/" [.file "x.png"] [] []
     none true (by decide) (by decide)⟩

/-- The collected-page url invariant: a resolved, non-empty string url. -/
def PageUrlOk (p : PageM) : Prop :=
  ∃ u, recGet "url" p.data = some (JsValue.str u) ∧ u ≠ ""

theorem finalizePage_pagesOk (cfg : BuildCfg) (page : PageM) (path : String)
    (p : PageM) (h : finalizePage cfg page path = .ok (some p)) :
    PageUrlOk p := by
  rw [finalizePage] at h
  split at h
  · cases h
  · cases h
  · rename_i u hgu
    split at h
    · cases h
    · rename_i hne
      simp only [Except.ok.injEq, Option.some.injEq] at h
      subst h
      refine ⟨u, ?_, hne⟩
      show recGet "url" (recSet "page" JsValue.pageMark
        (recSet "date" (cfg.pageDate { page with
            data := recSet "url" (JsValue.str u) page.data })
          (recSet "url" (JsValue.str u) page.data))) = some (JsValue.str u)
      rw [recGet_recSet_ne _ _ _ _ (by decide),
        recGet_recSet_ne _ _ _ _ (by decide), recGet_recSet_self]

theorem scopedPagesLoop_pagesOk (cfg : BuildCfg) (datas : List Rec)
    (dirData : Rec) (path : String) (ps : List PageM)
    (h : scopedPagesLoop cfg datas dirData path = .ok ps) :
    ∀ p ∈ ps, PageUrlOk p := by
  induction datas generalizing ps with
  | nil =>
      rw [scopedPagesLoop] at h
      cases h
      intro p hp
      cases hp
  | cons d rest ih =>
      rw [scopedPagesLoop] at h
      split at h
      · cases h
      · exact ih ps h
      · rename_i p0 heq
        split at h
        · cases h
        · rename_i ps0 heq2
          cases h
          intro p hp
          rcases List.mem_cons.mp hp with hp1 | hp2
          · rw [hp1]; exact finalizePage_pagesOk cfg _ path p0 heq
          · exact ih ps0 heq2 p hp2

theorem fileFormatOut_pagesOk (cfg : BuildCfg) (epath n path : String)
    (dirData : Rec) (out : BOut)
    (h : fileFormatOut cfg epath n path dirData = .ok out) :
    ∀ p ∈ out.pages, PageUrlOk p := by
  rw [fileFormatOut] at h
  split at h
  · split at h
    · cases h; intro p hp; cases hp
    · split at h
      · cases h; intro p hp; cases hp
      · cases h; intro p hp; cases hp
  · split at h
    · cases h; intro p hp; cases hp
    · split at h
      · cases h; intro p hp; cases hp
      · split at h
        · cases h
        · simp only at h
          split at h
          · cases h
          · cases h; intro p hp; cases hp
          · rename_i p0 heq
            split at h
            · cases h; intro p hp; cases hp
            · cases h
              intro p hp
              rcases List.mem_singleton.mp hp with hp1
              rw [hp1]
              exact finalizePage_pagesOk cfg _ path p0 heq

theorem build_aux : ∀ n : Nat,
    (∀ (cfg : BuildCfg) (dir : EntryT) (srcPath path : String)
       (pc : Components) (pd : Rec) (out : BOut), 3 * sizeOf dir ≤ n →
       buildDir cfg dir srcPath path pc pd = .ok out →
       ∀ p ∈ out.pages, PageUrlOk p) ∧
    (∀ (cfg : BuildCfg) (es : List EntryT) (srcPath path : String)
       (comps : Components) (dd : Rec) (out : BOut), 3 * sizeOf es + 2 ≤ n →
       buildChildren cfg es srcPath path comps dd = .ok out →
       ∀ p ∈ out.pages, PageUrlOk p) ∧
    (∀ (cfg : BuildCfg) (e : EntryT) (srcPath path : String)
       (comps : Components) (dd : Rec) (out : BOut), 3 * sizeOf e + 1 ≤ n →
       processEntry cfg e srcPath path comps dd = .ok out →
       ∀ p ∈ out.pages, PageUrlOk p) := by
  intro n
  induction n using Nat.strong_induction_on with
  | _ n ih =>
  refine ⟨?_, ?_, ?_⟩
  · intro cfg dir srcPath path pc pd out hn h p hp
    cases dir with
    | file fn =>
        rw [buildDir] at h
        cases h
        cases hp
    | dir dname children =>
        have hsz : sizeOf (EntryT.dir dname children)
            = 1 + sizeOf dname + sizeOf children := by simp
        rw [buildDir] at h
        split at h
        · cases h; cases hp
        · split at h
          · cases h
          · rename_i ctx heq
            split at h
            · cases h
            · rename_i sps heqs
              split at h
              · cases h
              · rename_i rest heqc
                cases h
                simp only at hp
                rcases List.mem_append.mp hp with h1 | h2
                · exact scopedPagesLoop_pagesOk cfg _ _ _ sps heqs p h1
                · exact (ih (3 * sizeOf children + 2) (by omega)).2.1
                    cfg children srcPath _ _ _ rest le_rfl heqc p h2
  · intro cfg es srcPath path comps dd out hn h p hp
    cases es with
    | nil =>
        rw [buildChildren] at h
        cases h
        cases hp
    | cons e rest =>
        have hsz : sizeOf (e :: rest) = 1 + sizeOf e + sizeOf rest := by simp
        rw [buildChildren] at h
        split at h
        · cases h
        · rename_i o1 heq1
          split at h
          · cases h
          · rename_i o2 heq2
            cases h
            rcases List.mem_append.mp hp with h1 | h2
            · exact (ih (3 * sizeOf e + 1) (by omega)).2.2
                cfg e srcPath path comps dd o1 le_rfl heq1 p h1
            · exact (ih (3 * sizeOf rest + 2) (by omega)).2.1
                cfg rest srcPath path comps dd o2 le_rfl heq2 p h2
  · intro cfg e srcPath path comps dd out hn h p hp
    cases e with
    | file fn =>
        rw [processEntry] at h
        split at h
        · cases h; cases hp
        · split at h
          · split at h
            · cases h; cases hp
            · cases h; cases hp
          · split at h
            · cases h; cases hp
            · split at h
              · cases h; cases hp
              · split at h
                · cases h; cases hp
                · exact fileFormatOut_pagesOk cfg _ fn path dd out h p hp
    | dir n2 cs2 =>
        have hsz : sizeOf (EntryT.dir n2 cs2)
            = 1 + sizeOf n2 + sizeOf cs2 := by simp
        rw [processEntry] at h
        split at h
        · cases h; cases hp
        · split at h
          · cases h; cases hp
          · split at h
            · cases h; cases hp
            · split at h
              · cases h; cases hp
              · split at h
                · cases h; cases hp
                · exact (ih (3 * sizeOf (EntryT.dir n2 cs2)) (by omega)).1
                    cfg (.dir n2 cs2) _ path comps dd out le_rfl h p hp

/-- C2: every page in a successful build's collection carries a resolved
url that is a non-empty string (never `false`, never absent); a page whose
url resolves to `false` is dropped by the finalisation step without
error. -/
theorem build_pages_url_nonempty :
    (∀ (cfg : BuildCfg) (root : EntryT) (out : BOut),
       build cfg root = .ok out →
       ∀ p ∈ out.pages,
         ∃ u, recGet "url" p.data = some (JsValue.str u) ∧ u ≠ "") ∧
    (∀ (cfg : BuildCfg) (page : PageM) (path : String),
       getUrl cfg.fenv page cfg.prettyUrls path = .ok none →
       finalizePage cfg page path = .ok none) := by
  constructor
  · intro cfg root out h p hp
    exact (build_aux (3 * sizeOf root)).1 cfg root "/" "/" [] [] out le_rfl h p hp
  · intro cfg page path h
    rw [finalizePage, h]

/-- A one-page source tree and its expected build result. -/
def rootW : EntryT := .dir "" [.file "a.md"]

def pW : PageM :=
  { srcPath := "/a", srcExt := ".md", srcSlug := "a", srcAsset := false,
    data := [("url", .str "/a/"), ("date", .date 0), ("page", .pageMark)] }

def outW : BOut := { pages := [pW], statics := [], dataLog := [("/", [])] }

/-- Witness for C2: the concrete one-page build succeeds with a single page
whose url is the non-empty string `/a/`, and a page declaring `url: false`
is finalised to no page and no error. -/
theorem build_pages_url_nonempty_witness :
    (∀ p ∈ outW.pages,
       ∃ u, recGet "url" p.data = some (JsValue.str u) ∧ u ≠ "") ∧
    finalizePage cfgW
      { srcPath := "", srcExt := "", srcSlug := "", srcAsset := false,
        data := [("url", .bool false)] } "/" = .ok none := by
  constructor
  · refine build_pages_url_nonempty.1 cfgW rootW outW ?_
    have hpe : processEntry cfgW (.file "a.md") "/" "/" [] []
        = .ok { pages := [pW], statics := [], dataLog := [] } := by
      rw [processEntry]
      decide
    have hbc0 : buildChildren cfgW [] "/" "/" [] [] = .ok BOut.empty := by
      rw [buildChildren]
    have hbc : buildChildren cfgW [.file "a.md"] "/" "/" [] []
        = .ok { pages := [pW], statics := [], dataLog := [] } := by
      rw [buildChildren, hpe, hbc0]
      decide
    have hdc : dirContext cfgW "" [.file "a.md"] "/" "/" [] []
        = .ok ("/", [], []) := by decide
    have hsp : scopedPagesLoop cfgW (cfgW.scopedPages "/") [] "/"
        = .ok [] := by decide
    have hrej : cfgW.entryRejects "/" (EntryT.dir "" [.file "a.md"])
        = false := by decide
    show buildDir cfgW rootW "/" "/" [] [] = .ok outW
    rw [show rootW = .dir "" [.file "a.md"] from rfl, buildDir]
    simp only [hrej, hdc, hsp, hbc]
    decide
  · exact build_pages_url_nonempty.2 cfgW _ "/" (by decide)

end Lume
